import Mathlib

/-!
# Campus map navigation: the graph store and the shortest-path query

A shallow embedding of `cuMap.cpp` (classes `Road`, `MapGraph` and the method
`MapVisualizer::setPathInfo`), followed by theorems about it.

Modelling conventions.

* `int` values are `Int`; no overflow is modelled.
* `double` values are exact rationals (`ℚ`); the value `+infinity` of the
  distance array is `none` in `Option ℚ`.
* `unordered_map<int, vector<Road>>` is a partial function `Int → Option (List Road)`:
  `none` is an absent key.  The map is never iterated, so no order is needed.
* `vector` is `List`; an access `v[i]` outside `[0, v.size())` is undefined
  behaviour in C++ and yields `Outcome.outOfRange` here.
* `std::priority_queue<pair<double,int>, ..., greater<>>` is the list of its
  entries; `top` is the least entry in the lexicographic order of pairs.
* Loops run on fuel: a loop that has not finished when the fuel is used up
  yields `Outcome.outOfFuel`.
-/

namespace CuMap

/-! ## Data model -/

/-- Class `Location`: a display name and a free-text description. -/
structure Location where
  name : String
  description : String
deriving DecidableEq, Repr

/-- Class `Road`: a destination index and a distance. -/
structure Road where
  destination : Int
  distance : ℚ
deriving DecidableEq, Repr

/-- Type of the member `adjList`: a finite map seen as a partial function. -/
abbrev AdjList := Int → Option (List Road)

/-- Class `MapGraph`: the location vector and the adjacency map. -/
structure MapGraph where
  locations : List Location
  adjList : AdjList

/-- Result of running a piece of code: a value, an out-of-range vector access,
or fuel exhausted before the loop finished. -/
inductive Outcome (α : Type) where
  | done (a : α)
  | outOfRange
  | outOfFuel
deriving DecidableEq, Repr

/-- Default-constructed `MapGraph`: no location, no adjacency entry. -/
def MapGraph.empty : MapGraph := ⟨[], fun _ => none⟩

/-! ## Containers -/

/-- Read `v[i]` of a vector, `none` when `i` is out of range. -/
def getAt {α : Type} (l : List α) (i : Int) : Option α :=
  if i < 0 then none else l[i.toNat]?

/-- Write `v[i] = a` of a vector, `none` when `i` is out of range. -/
def setAt {α : Type} (l : List α) (i : Int) (a : α) : Option (List α) :=
  if i < 0 then none
  else if i.toNat < l.length then some (l.set i.toNat a) else none

/-- Expression `adjList[k]` (`unordered_map::operator[]`): the vector stored at
`k`; an absent key is first inserted with an empty vector. -/
def adjIndex (m : AdjList) (k : Int) : AdjList × List Road :=
  match m k with
  | some rs => (m, rs)
  | none => (fun j => if j = k then some [] else m j, [])

/-- Statement `adjList[k].emplace_back(dest, distance)`. -/
def adjEmplace (m : AdjList) (k : Int) (r : Road) : AdjList :=
  let p := adjIndex m k
  fun j => if j = k then some (p.2 ++ [r]) else p.1 j

/-- Order `greater<>` selects: the lexicographic order on `pair<double,int>`. -/
def entryLe (a b : ℚ × Int) : Bool :=
  decide (a.1 < b.1) || (decide (a.1 = b.1) && decide (a.2 ≤ b.2))

/-- Call `pq.top()`: the least entry, `none` on an empty queue. -/
def pqTop : List (ℚ × Int) → Option (ℚ × Int)
  | [] => none
  | e :: es =>
    match pqTop es with
    | none => some e
    | some m => if entryLe e m then some e else some m

/-- Comparison `alt < dist[v]` where `none` is `+infinity`. -/
def distLt (alt : ℚ) : Option ℚ → Bool
  | none => true
  | some x => decide (alt < x)

/-! ## MapGraph -/

/-- Method `addLocation`: append the location and return its index. -/
def MapGraph.addLocation (g : MapGraph) (name desc : String) : MapGraph × Int :=
  ({ g with locations := g.locations ++ [⟨name, desc⟩] }, (g.locations.length : Int))

/-- Method `addRoad`: one record in each direction. -/
def MapGraph.addRoad (g : MapGraph) (src dest : Int) (distance : ℚ) : MapGraph :=
  let m1 := adjEmplace g.adjList src ⟨dest, distance⟩
  let m2 := adjEmplace m1 dest ⟨src, distance⟩
  { g with adjList := m2 }

/-- Method `getLocationCount`. -/
def MapGraph.getLocationCount (g : MapGraph) : Int := (g.locations.length : Int)

/-- Method `getRoadsFrom`: the stored vector, or the static empty vector when
the key is absent (`find`, no insertion). -/
def MapGraph.getRoadsFrom (g : MapGraph) (loc : Int) : List Road :=
  match g.adjList loc with
  | some rs => rs
  | none => []

/-- Method `getLocation`. -/
def MapGraph.getLocation (g : MapGraph) (id : Int) : Option Location :=
  getAt g.locations id

/-! ## The query -/

/-- Local state of `shortestPathByDistance` together with the member `adjList`,
which the loop reaches through `operator[]`. -/
structure DState where
  dist : List (Option ℚ)
  prev : List Int
  pq : List (ℚ × Int)
  adjList : AdjList

/-- Body of the inner `for` loop for one road out of `u`, popped with key `d`. -/
def relaxRoad (u : Int) (d : ℚ) (st : DState) (road : Road) : Option DState :=
  let v := road.destination
  let alt := d + road.distance
  match getAt st.dist v with
  | none => none
  | some dv =>
    if distLt alt dv then
      match setAt st.dist v (some alt), setAt st.prev v u with
      | some dist1, some prev1 =>
        some { st with dist := dist1, prev := prev1, pq := (alt, v) :: st.pq }
      | _, _ => none
    else some st

/-- Inner `for` loop over the roads of `u`. -/
def relaxAll (u : Int) (d : ℚ) : DState → List Road → Option DState
  | st, [] => some st
  | st, r :: rs =>
    match relaxRoad u d st r with
    | none => none
    | some st1 => relaxAll u d st1 rs

/-- Loop `while (!pq.empty())` of `shortestPathByDistance`. -/
def relaxLoop (end_ : Int) : Nat → DState → Outcome DState
  | 0, _ => Outcome.outOfFuel
  | fuel + 1, st =>
    match pqTop st.pq with
    | none => Outcome.done st
    | some top =>
      let st1 : DState := { st with pq := st.pq.erase top }
      if top.2 = end_ then Outcome.done st1
      else
        let p := adjIndex st1.adjList top.2
        match relaxAll top.2 top.1 { st1 with adjList := p.1 } p.2 with
        | none => Outcome.outOfRange
        | some st2 => relaxLoop end_ fuel st2

/-- Loop `for (int at = end; at != -1; at = prev[at]) path.push_back(at)`. -/
def walkBack (prev : List Int) : Nat → Int → List Int → Outcome (List Int)
  | fuel, at_, path =>
    if at_ = -1 then Outcome.done path
    else
      match fuel with
      | 0 => Outcome.outOfFuel
      | f + 1 =>
        match getAt prev at_ with
        | none => Outcome.outOfRange
        | some p => walkBack prev f p (path ++ [at_])

/-- State on entry to the `while` loop: `dist[start] = 0; pq.emplace(0, start)`. -/
def initState (g : MapGraph) (start : Int) : Option DState :=
  let n := g.locations.length
  match setAt (List.replicate n (none : Option ℚ)) start (some 0) with
  | none => none
  | some dist0 => some ⟨dist0, List.replicate n (-1 : Int), [(0, start)], g.adjList⟩

/-- Method `shortestPathByDistance`: the returned path and the store after the call. -/
def MapGraph.shortestPathByDistance (g : MapGraph) (start end_ : Int) (fuel : Nat) :
    Outcome (List Int × MapGraph) :=
  match initState g start with
  | none => Outcome.outOfRange
  | some st0 =>
    match relaxLoop end_ fuel st0 with
    | Outcome.outOfRange => Outcome.outOfRange
    | Outcome.outOfFuel => Outcome.outOfFuel
    | Outcome.done st =>
      match walkBack st.prev fuel end_ [] with
      | Outcome.outOfRange => Outcome.outOfRange
      | Outcome.outOfFuel => Outcome.outOfFuel
      | Outcome.done path => Outcome.done (path.reverse, { g with adjList := st.adjList })

/-! ## MapVisualizer::setPathInfo -/

/-- Members `currentPath`, `totalDistance`, `totalTime` of `MapVisualizer`. -/
structure PathInfo where
  currentPath : List Int
  totalDistance : ℚ
  totalTime : ℚ
deriving DecidableEq, Repr

/-- Inner loop of `setPathInfo`: the first road whose destination is `v`. -/
def firstRoadTo : List Road → Int → Option Road
  | [], _ => none
  | r :: rs, v => if r.destination = v then some r else firstRoadTo rs v

/-- Outer loop of `setPathInfo` over the consecutive pairs of the path. -/
def sumPath (g : MapGraph) : List Int → ℚ × ℚ → ℚ × ℚ
  | a :: b :: rest, acc =>
    match firstRoadTo (g.getRoadsFrom a) b with
    | some r => sumPath g (b :: rest) (acc.1 + r.distance, acc.2 + r.distance * 2)
    | none => sumPath g (b :: rest) acc
  | _, acc => acc

/-- Method `setPathInfo`. -/
def setPathInfo (path : List Int) (g : MapGraph) : PathInfo :=
  let t := sumPath g path (0, 0)
  ⟨path, t.1, t.2⟩

/-! ## The campus map of `main` -/

/-- Store built by `main`: five locations and seven roads. -/
def campusMap : MapGraph :=
  let g0 := MapGraph.empty
  let g1 := (g0.addLocation "Block A" "Admin Block").1
  let g2 := (g1.addLocation "Block B" "Engineering Block").1
  let g3 := (g2.addLocation "Block C" "Management Block").1
  let g4 := (g3.addLocation "Block D" "Law Department").1
  let g5 := (g4.addLocation "Hostel" "Boys/Girls Hostel").1
  let g6 := g5.addRoad 0 1 (1/2)
  let g7 := g6.addRoad 1 2 (4/5)
  let g8 := g7.addRoad 2 3 1
  let g9 := g8.addRoad 3 4 (6/5)
  let g10 := g9.addRoad 0 4 (3/2)
  let g11 := g10.addRoad 1 3 (7/10)
  g11.addRoad 2 4 (9/10)

/-! ## Specification vocabulary -/

/-- An index in `[0, getLocationCount())`. -/
def ValidIndex (g : MapGraph) (i : Int) : Prop := 0 ≤ i ∧ i < g.getLocationCount

instance instDecidableValidIndex (g : MapGraph) (i : Int) : Decidable (ValidIndex g i) :=
  inferInstanceAs (Decidable (0 ≤ i ∧ i < g.getLocationCount))

/-- Every stored road has a distance `≥ 0`. -/
def WeightsNonneg (g : MapGraph) : Prop :=
  ∀ k, ∀ r ∈ g.getRoadsFrom k, 0 ≤ r.distance

/-- Every stored road leads to a valid index. -/
def DestsValid (g : MapGraph) : Prop :=
  ∀ k, ∀ r ∈ g.getRoadsFrom k, ValidIndex g r.destination

/-- A route from `u` to `v`: road records traversed one after the other, each
taken from the adjacency list of the location reached so far. -/
def IsRoute (g : MapGraph) : Int → List Road → Int → Prop
  | u, [], v => u = v
  | u, r :: rs, v => r ∈ g.getRoadsFrom u ∧ IsRoute g r.destination rs v

/-- Sum of the distances of the traversed roads. -/
def routeWeight : List Road → ℚ
  | [] => 0
  | r :: rs => r.distance + routeWeight rs

/-- Some sequence of roads connects `s` to `e`. -/
def Reachable (g : MapGraph) (s e : Int) : Prop := ∃ rs, IsRoute g s rs e

/-- At least one road of `getRoadsFrom p` leads to `q`. -/
def Joined (g : MapGraph) (p q : Int) : Prop :=
  ∃ r ∈ g.getRoadsFrom p, r.destination = q

/-- Least distance among the roads of the list that lead to `q`. -/
def cheapestTo : List Road → Int → Option ℚ
  | [], _ => none
  | r :: rs, q =>
    if r.destination = q then
      match cheapestTo rs q with
      | none => some r.distance
      | some m => some (min r.distance m)
    else cheapestTo rs q

/-- Weight of a sequence of locations, the cheapest road taken between each
consecutive pair (a pair joined by no road counts for nothing). -/
def pathWeight (g : MapGraph) : List Int → ℚ
  | a :: b :: rest =>
    (match cheapestTo (g.getRoadsFrom a) b with
      | some w => w
      | none => 0) + pathWeight g (b :: rest)
  | _ => 0

/-- Number of road records stored at the indices below `k`. -/
def totalRoads (g : MapGraph) : Nat → Nat
  | 0 => 0
  | k + 1 => totalRoads g k + (g.getRoadsFrom (k : Int)).length

/-- Fuel that suffices for both loops of a query on `g`. -/
def fuelBound (g : MapGraph) : Nat :=
  g.locations.length + 1 + totalRoads g g.locations.length

/-! ## Loop invariants -/

/-- Roads are well formed with respect to `n` locations. -/
def GraphOK (R : Int → List Road) (n : Nat) : Prop :=
  ∀ k, ∀ r ∈ R k, 0 ≤ r.distance ∧ 0 ≤ r.destination ∧ r.destination < (n : Int)

/-- The tentative distance of `v` is the finite value `dv`. -/
def FiniteAt (st : DState) (v : Int) (dv : ℚ) : Prop :=
  getAt st.dist v = some (some dv)

/-- Along the list (most recently settled first) every predecessor link points
to a location settled earlier. -/
def ChainOK (prev : List Int) : List Int → Prop
  | [] => True
  | v :: b => (∀ p, getAt prev v = some p → p = -1 ∨ p ∈ b) ∧ ChainOK prev b

/-- Road records stored at unsettled indices below `k`. -/
def pendingRoads (R : Int → List Road) (S : List Int) : Nat → Nat
  | 0 => 0
  | k + 1 => pendingRoads R S k + (if (k : Int) ∈ S then 0 else (R (k : Int)).length)

/-- Invariant of the relaxation loop that survives the removal of queue entries.
`S` lists the settled locations (those whose roads have been relaxed), most
recent first; `pend` are the roads of the head of `S` still to be relaxed. -/
structure Core (R : Int → List Road) (n : Nat) (start end_ : Int)
    (S : List Int) (pend : List Road) (st : DState) : Prop where
  lenD : st.dist.length = n
  lenP : st.prev.length = n
  adj : ∀ k, (match st.adjList k with | some rs => rs | none => []) = R k
  adjS : ∀ u ∈ S, st.adjList u ≠ none
  startD : FiniteAt st start 0
  startP : getAt st.prev start = some (-1)
  pqOK : ∀ e ∈ st.pq, 0 ≤ e.1 ∧ ∃ dv, FiniteAt st e.2 dv ∧ dv ≤ e.1
  sNodup : S.Nodup
  sEnd : end_ ∉ S
  sDist : ∀ u ∈ S, ∃ du, FiniteAt st u du ∧ ∀ e ∈ st.pq, du ≤ e.1
  sRoads : ∀ u ∈ S, ∀ r ∈ R u, (S.head? = some u ∧ r ∈ pend) ∨
    ∃ du dv, FiniteAt st u du ∧ FiniteAt st r.destination dv ∧ dv ≤ du + r.distance
  prevOK : ∀ v u, getAt st.prev v = some u → u ≠ -1 →
    u ∈ S ∧ ∃ r ∈ R u, r.destination = v ∧
      ∃ du, FiniteAt st u du ∧ FiniteAt st v (du + r.distance)
  prevNone : ∀ v, getAt st.dist v = some none → getAt st.prev v = some (-1)
  prevRoot : ∀ v dv, FiniteAt st v dv → getAt st.prev v = some (-1) → v = start
  chain : ChainOK st.prev S

/-- Invariant at the head of the `while` loop: every unsettled location with a
finite tentative distance has its entry in the queue. -/
structure Inv (R : Int → List Road) (n : Nat) (start end_ : Int)
    (S : List Int) (pend : List Road) (st : DState) : Prop where
  core : Core R n start end_ S pend st
  opn : ∀ v dv, FiniteAt st v dv → v ∉ S → (dv, v) ∈ st.pq

/-- Invariant of the inner `for` loop while the roads of `u`, popped with key
`d`, are relaxed. -/
structure InvIn (R : Int → List Road) (n : Nat) (start end_ : Int)
    (S : List Int) (pend : List Road) (st : DState) (u : Int) (d : ℚ) : Prop where
  inv : Inv R n start end_ S pend st
  head : S.head? = some u
  atU : FiniteAt st u d
  low : ∀ x ∈ S, ∃ dx, FiniteAt st x dx ∧ dx ≤ d
  mins : ∀ e ∈ st.pq, d ≤ e.1
  dNonneg : 0 ≤ d
  pendSub : ∀ r ∈ pend, r ∈ R u

/-- The backward walk from `u` ends within `L` steps, and what it collects is,
read from the far end, a sequence from `start` to `u` joined by roads whose
weight is the tentative distance of `u`. -/
def Trail (g : MapGraph) (st : DState) (start u : Int) (L : Nat) : Prop :=
  ∃ (P : List Int) (du : ℚ), FiniteAt st u du ∧ P.head? = some start ∧
    P.getLast? = some u ∧ List.Chain' (Joined g) P ∧ pathWeight g P = du ∧
    P.length ≤ L ∧
    ∀ fuel, L ≤ fuel → ∀ acc, walkBack st.prev fuel u acc = Outcome.done (acc ++ P.reverse)

/-! ## The loop with a stale-entry check -/

/-- Test `d > dist[u]` on a popped entry `(d, u)`; `none` when `u` is out of range. -/
def staleEntry (st : DState) (top : ℚ × Int) : Option Bool :=
  match getAt st.dist top.2 with
  | none => none
  | some none => some false
  | some (some du) => some (decide (du < top.1))

/-- Variant of `relaxLoop` stated by the specification: a popped entry `(d, u)` with
`d > dist[u]` is skipped.  With `staleFirst` the check comes right after the pop,
otherwise after the test `u == end`. -/
def relaxLoopSkip (staleFirst : Bool) (end_ : Int) : Nat → DState → Outcome DState
  | 0, _ => Outcome.outOfFuel
  | fuel + 1, st =>
    match pqTop st.pq with
    | none => Outcome.done st
    | some top =>
      let st1 : DState := { st with pq := st.pq.erase top }
      let p := adjIndex st1.adjList top.2
      if staleFirst then
        match staleEntry st1 top with
        | none => Outcome.outOfRange
        | some true => relaxLoopSkip staleFirst end_ fuel st1
        | some false =>
          if top.2 = end_ then Outcome.done st1
          else
            match relaxAll top.2 top.1 { st1 with adjList := p.1 } p.2 with
            | none => Outcome.outOfRange
            | some st2 => relaxLoopSkip staleFirst end_ fuel st2
      else
        if top.2 = end_ then Outcome.done st1
        else
          match staleEntry st1 top with
          | none => Outcome.outOfRange
          | some true => relaxLoopSkip staleFirst end_ fuel st1
          | some false =>
            match relaxAll top.2 top.1 { st1 with adjList := p.1 } p.2 with
            | none => Outcome.outOfRange
            | some st2 => relaxLoopSkip staleFirst end_ fuel st2

/-- Query built on `relaxLoopSkip`, otherwise as `shortestPathByDistance`. -/
def MapGraph.shortestPathSkipStale (g : MapGraph) (staleFirst : Bool) (start end_ : Int)
    (fuel : Nat) : Outcome (List Int × MapGraph) :=
  match initState g start with
  | none => Outcome.outOfRange
  | some st0 =>
    match relaxLoopSkip staleFirst end_ fuel st0 with
    | Outcome.outOfRange => Outcome.outOfRange
    | Outcome.outOfFuel => Outcome.outOfFuel
    | Outcome.done st =>
      match walkBack st.prev fuel end_ [] with
      | Outcome.outOfRange => Outcome.outOfRange
      | Outcome.outOfFuel => Outcome.outOfFuel
      | Outcome.done path => Outcome.done (path.reverse, { g with adjList := st.adjList })

/-! ## Calls of `main` and small stores -/

/-- Lines of `main` after the input: the query, then `setPathInfo` on its result. -/
def mainQuery (g : MapGraph) (start end_ : Int) (fuel : Nat) : Outcome PathInfo :=
  match g.shortestPathByDistance start end_ fuel with
  | Outcome.outOfRange => Outcome.outOfRange
  | Outcome.outOfFuel => Outcome.outOfFuel
  | Outcome.done r => Outcome.done (setPathInfo r.1 r.2)

/-- Path component of a query result. -/
def queryPath (o : Outcome (List Int × MapGraph)) : Outcome (List Int) :=
  match o with
  | Outcome.outOfRange => Outcome.outOfRange
  | Outcome.outOfFuel => Outcome.outOfFuel
  | Outcome.done r => Outcome.done r.1

/-- Number of popped entries `(d, u)` with `d > dist[u]` that `relaxLoop` meets:
the same loop, counting instead of returning the state. -/
def stalePops (end_ : Int) : Nat → DState → Nat
  | 0, _ => 0
  | fuel + 1, st =>
    match pqTop st.pq with
    | none => 0
    | some top =>
      let st1 : DState := { st with pq := st.pq.erase top }
      let c : Nat :=
        match staleEntry st1 top with
        | some true => 1
        | _ => 0
      if top.2 = end_ then c
      else
        let p := adjIndex st1.adjList top.2
        match relaxAll top.2 top.1 { st1 with adjList := p.1 } p.2 with
        | none => c
        | some st2 => c + stalePops end_ fuel st2

/-- Stale entries popped by the loop of `shortestPathByDistance(start, end)`. -/
def MapGraph.stalePopCount (g : MapGraph) (start end_ : Int) (fuel : Nat) : Nat :=
  match initState g start with
  | none => 0
  | some st0 => stalePops end_ fuel st0

/-- Two locations and no road. -/
def twoLocations : MapGraph :=
  ((MapGraph.empty.addLocation "P" "").1.addLocation "Q" "").1

/-- Four locations with roads `0-1` of `10`, `0-2` of `1`, `2-1` of `1` and `1-3`
of `20`: the entry `(10, 1)` pushed first is overtaken by `(2, 1)` and is popped
stale on the way from `0` to `3`. -/
def staleMap : MapGraph :=
  let g0 := (twoLocations.addLocation "R" "").1
  let g1 := (g0.addLocation "S" "").1
  let g2 := g1.addRoad 0 1 10
  let g3 := g2.addRoad 0 2 1
  let g4 := g3.addRoad 2 1 1
  g4.addRoad 1 3 20

/-- Two locations joined by two parallel roads, the dearer one stored first. -/
def parallelMap : MapGraph :=
  (twoLocations.addRoad 0 1 5).addRoad 0 1 1

/-- Stores that calls of `addLocation` and `addRoad` build from the empty store,
every road added between valid indices with a distance `≥ 0`. -/
inductive Built : MapGraph → Prop where
  | empty : Built MapGraph.empty
  | addLocation (g : MapGraph) (name desc : String) :
      Built g → Built (g.addLocation name desc).1
  | addRoad (g : MapGraph) (a b : Int) (w : ℚ) :
      Built g → ValidIndex g a → ValidIndex g b → 0 ≤ w → Built (g.addRoad a b w)

/-- Among the roads from `p` to `q`, the one stored first is a cheapest one, for
all `p` and `q`; so it is when no two roads join the same pair. -/
def FirstIsCheapest (g : MapGraph) : Prop :=
  ∀ p q r, firstRoadTo (g.getRoadsFrom p) q = some r →
    ∀ r1 ∈ g.getRoadsFrom p, r1.destination = q → r.distance ≤ r1.distance

/-! ## Containers: basic facts -/

theorem getAt_some_range {α : Type} {l : List α} {i : Int} {a : α}
    (h : getAt l i = some a) : 0 ≤ i ∧ i < (l.length : Int) := by
  unfold getAt at h
  split at h
  · simp at h
  · have h2 : i.toNat < l.length := by
      by_contra hc
      rw [List.getElem?_eq_none (by omega)] at h
      simp at h
    omega

theorem getAt_of_range {α : Type} {l : List α} {i : Int}
    (h0 : 0 ≤ i) (h1 : i < (l.length : Int)) : ∃ a, getAt l i = some a := by
  unfold getAt
  have h2 : i.toNat < l.length := by omega
  refine ⟨l[i.toNat], ?_⟩
  rw [if_neg (by omega)]
  exact List.getElem?_eq_getElem h2

theorem setAt_of_range {α : Type} {l : List α} {i : Int} (a : α)
    (h0 : 0 ≤ i) (h1 : i < (l.length : Int)) : setAt l i a = some (l.set i.toNat a) := by
  unfold setAt
  rw [if_neg (by omega), if_pos (by omega)]

theorem setAt_some {α : Type} {l l1 : List α} {i : Int} {a : α}
    (h : setAt l i a = some l1) :
    0 ≤ i ∧ i < (l.length : Int) ∧ l1 = l.set i.toNat a := by
  unfold setAt at h
  split at h
  · simp at h
  · split at h
    · simp at h
      refine ⟨by omega, by omega, h.symm⟩
    · simp at h

theorem setAt_length {α : Type} {l l1 : List α} {i : Int} {a : α}
    (h : setAt l i a = some l1) : l1.length = l.length := by
  obtain ⟨_, _, rfl⟩ := setAt_some h
  simp

theorem getAt_setAt_same {α : Type} {l l1 : List α} {i : Int} {a : α}
    (h : setAt l i a = some l1) : getAt l1 i = some a := by
  obtain ⟨h0, h1, rfl⟩ := setAt_some h
  unfold getAt
  rw [if_neg (by omega)]
  have h2 : i.toNat < l.length := by omega
  simp [List.getElem?_set, h2]

theorem getAt_setAt_other {α : Type} {l l1 : List α} {i j : Int} {a : α}
    (h : setAt l i a = some l1) (hj : j ≠ i) : getAt l1 j = getAt l j := by
  obtain ⟨h0, h1, rfl⟩ := setAt_some h
  unfold getAt
  by_cases hneg : j < 0
  · simp [hneg]
  · rw [if_neg hneg, if_neg hneg]
    have : i.toNat ≠ j.toNat := by omega
    simp [List.getElem?_set, this]

theorem getAt_replicate {α : Type} {n : Nat} {a : α} {i : Int}
    (h0 : 0 ≤ i) (h1 : i < (n : Int)) : getAt (List.replicate n a) i = some a := by
  unfold getAt
  rw [if_neg (by omega)]
  have : i.toNat < n := by omega
  simp [List.getElem?_replicate, this]

theorem getAt_replicate_some {α : Type} {n : Nat} {a b : α} {i : Int}
    (h : getAt (List.replicate n a) i = some b) : b = a := by
  have hr := getAt_some_range h
  simp at hr
  rw [getAt_replicate hr.1 hr.2] at h
  simp at h
  exact h.symm

/-! ## The priority queue -/

theorem entryLe_refl (a : ℚ × Int) : entryLe a a = true := by
  simp [entryLe]

theorem entryLe_total (a b : ℚ × Int) : entryLe a b = true ∨ entryLe b a = true := by
  simp only [entryLe, Bool.or_eq_true, Bool.and_eq_true, decide_eq_true_eq]
  rcases lt_trichotomy a.1 b.1 with h | h | h
  · exact Or.inl (Or.inl h)
  · rcases le_total a.2 b.2 with h2 | h2
    · exact Or.inl (Or.inr ⟨h, h2⟩)
    · exact Or.inr (Or.inr ⟨h.symm, h2⟩)
  · exact Or.inr (Or.inl h)

theorem entryLe_trans {a b c : ℚ × Int} (h1 : entryLe a b = true) (h2 : entryLe b c = true) :
    entryLe a c = true := by
  simp only [entryLe, Bool.or_eq_true, Bool.and_eq_true, decide_eq_true_eq] at *
  rcases h1 with h1 | ⟨h1, h1b⟩ <;> rcases h2 with h2 | ⟨h2, h2b⟩
  · exact Or.inl (lt_trans h1 h2)
  · exact Or.inl (h2 ▸ h1)
  · exact Or.inl (h1 ▸ h2)
  · exact Or.inr ⟨h1.trans h2, le_trans h1b h2b⟩

theorem entryLe_fst {a b : ℚ × Int} (h : entryLe a b = true) : a.1 ≤ b.1 := by
  simp only [entryLe, Bool.or_eq_true, Bool.and_eq_true, decide_eq_true_eq] at h
  rcases h with h | ⟨h, _⟩
  · exact le_of_lt h
  · exact le_of_eq h

theorem pqTop_eq_none {pq : List (ℚ × Int)} (h : pqTop pq = none) : pq = [] := by
  cases pq with
  | nil => rfl
  | cons e es =>
    unfold pqTop at h
    split at h
    · simp at h
    · split at h <;> simp at h

theorem pqTop_mem {pq : List (ℚ × Int)} {m : ℚ × Int} (h : pqTop pq = some m) : m ∈ pq := by
  induction pq generalizing m with
  | nil => simp [pqTop] at h
  | cons e es ih =>
    unfold pqTop at h
    split at h
    · simp at h
      simp [h]
    · rename_i m1 hm1
      split at h
      · simp at h
        simp [h]
      · simp at h
        subst h
        exact List.mem_cons_of_mem _ (ih hm1)

theorem pqTop_le {pq : List (ℚ × Int)} {m : ℚ × Int} (h : pqTop pq = some m) :
    ∀ e ∈ pq, entryLe m e = true := by
  induction pq generalizing m with
  | nil => simp [pqTop] at h
  | cons e es ih =>
    unfold pqTop at h
    split at h
    · rename_i hn
      simp at h
      subst h
      have := pqTop_eq_none hn
      subst this
      intro x hx
      simp at hx
      subst hx
      exact entryLe_refl _
    · rename_i m1 hm1
      split at h
      · rename_i hle
        simp at h
        subst h
        intro x hx
        rcases List.mem_cons.1 hx with rfl | hx
        · exact entryLe_refl _
        · exact entryLe_trans hle (ih hm1 x hx)
      · rename_i hle
        simp at h
        subst h
        intro x hx
        rcases List.mem_cons.1 hx with rfl | hx
        · rcases entryLe_total x m1 with h3 | h3
          · exact absurd h3 hle
          · exact h3
        · exact ih hm1 x hx

theorem pqTop_key_le {pq : List (ℚ × Int)} {m : ℚ × Int} (h : pqTop pq = some m) :
    ∀ e ∈ pq, m.1 ≤ e.1 :=
  fun e he => entryLe_fst (pqTop_le h e he)

/-! ## The inner loop preserves the invariant -/

theorem chainOK_congr {prev prev1 : List Int} {S : List Int}
    (h : ∀ x ∈ S, getAt prev1 x = getAt prev x) (hc : ChainOK prev S) : ChainOK prev1 S := by
  induction S with
  | nil => trivial
  | cons v b ih =>
    refine ⟨?_, ih (fun x hx => h x (List.mem_cons_of_mem _ hx)) hc.2⟩
    intro p hp
    rw [h v (List.mem_cons_self _ _)] at hp
    exact hc.1 p hp

theorem relaxRoad_keep {R : Int → List Road} {n : Nat} {start end_ : Int} {S : List Int}
    {r : Road} {rest : List Road} {st : DState} {u : Int} {d : ℚ}
    (h : InvIn R n start end_ S (r :: rest) st u d)
    {dv : ℚ} (hdv : FiniteAt st r.destination dv) (hle : dv ≤ d + r.distance) :
    InvIn R n start end_ S rest st u d := by
  have hc := h.inv.core
  refine ⟨⟨⟨hc.lenD, hc.lenP, hc.adj, hc.adjS, hc.startD, hc.startP, hc.pqOK, hc.sNodup,
    hc.sEnd, hc.sDist, ?_, hc.prevOK, hc.prevNone, hc.prevRoot, hc.chain⟩, h.inv.opn⟩,
    h.head, h.atU, h.low, h.mins, h.dNonneg, fun x hx => h.pendSub x (List.mem_cons_of_mem _ hx)⟩
  intro x hx r1 hr1
  rcases hc.sRoads x hx r1 hr1 with ⟨hh, hp⟩ | hb
  · rcases List.mem_cons.1 hp with rfl | hp
    · have hxu : x = u := by
        have := h.head
        rw [hh] at this
        exact Option.some.inj this
      subst hxu
      exact Or.inr ⟨d, dv, h.atU, hdv, hle⟩
    · exact Or.inl ⟨hh, hp⟩
  · exact Or.inr hb

theorem finiteAt_inj {st : DState} {v : Int} {a b : ℚ}
    (ha : FiniteAt st v a) (hb : FiniteAt st v b) : a = b := by
  unfold FiniteAt at ha hb
  rw [ha] at hb
  exact Option.some.inj (Option.some.inj hb)

theorem head_mem {S : List Int} {u : Int} (h : S.head? = some u) : u ∈ S := by
  cases S with
  | nil => simp at h
  | cons a b =>
    simp at h
    simp [h]

theorem relaxRoad_update {R : Int → List Road} {n : Nat} {start end_ : Int} {S : List Int}
    {r : Road} {rest : List Road} {st : DState} {u : Int} {d : ℚ}
    (hG : GraphOK R n)
    (h : InvIn R n start end_ S (r :: rest) st u d)
    {dvo : Option ℚ} (hdvo : getAt st.dist r.destination = some dvo)
    (hlt : distLt (d + r.distance) dvo = true)
    {dist1 : List (Option ℚ)} {prev1 : List Int}
    (hd1 : setAt st.dist r.destination (some (d + r.distance)) = some dist1)
    (hp1 : setAt st.prev r.destination u = some prev1) :
    InvIn R n start end_ S rest
      { st with dist := dist1, prev := prev1, pq := (d + r.distance, r.destination) :: st.pq }
      u d := by
  have hc := h.inv.core
  have hrR : r ∈ R u := h.pendSub r (List.mem_cons_self _ _)
  have hw : 0 ≤ r.distance := (hG u r hrR).1
  have hd0 := h.dNonneg
  have huS : u ∈ S := head_mem h.head
  have hold : ∀ dx, FiniteAt st r.destination dx → d + r.distance < dx := by
    intro dx hdx
    unfold FiniteAt at hdx
    rw [hdvo] at hdx
    have : dvo = some dx := Option.some.inj hdx
    subst this
    simpa [distLt] using hlt
  have hvS : r.destination ∉ S := by
    intro hmem
    obtain ⟨dx, hdx, hle⟩ := h.low _ hmem
    have := hold dx hdx
    linarith
  have hvu : r.destination ≠ u := fun e => hvS (e ▸ huS)
  have hvstart : r.destination ≠ start := by
    intro e
    have := hold 0 (e ▸ hc.startD)
    linarith
  have hu0 : u ≠ -1 := by
    have := (getAt_some_range h.atU).1
    omega
  have hDs : getAt dist1 r.destination = some (some (d + r.distance)) := getAt_setAt_same hd1
  have hDo : ∀ j, j ≠ r.destination → getAt dist1 j = getAt st.dist j :=
    fun j hj => getAt_setAt_other hd1 hj
  have hPs : getAt prev1 r.destination = some u := getAt_setAt_same hp1
  have hPo : ∀ j, j ≠ r.destination → getAt prev1 j = getAt st.prev j :=
    fun j hj => getAt_setAt_other hp1 hj
  have hneS : ∀ x ∈ S, x ≠ r.destination := fun x hx e => hvS (e ▸ hx)
  have hkeep : ∀ x dx, x ≠ r.destination → FiniteAt st x dx →
      getAt dist1 x = some (some dx) := fun x dx hx hdx => by
    rw [hDo x hx]; exact hdx
  refine ⟨⟨⟨?_, ?_, hc.adj, hc.adjS, ?_, ?_, ?_, hc.sNodup, hc.sEnd, ?_, ?_, ?_, ?_, ?_, ?_⟩, ?_⟩,
    h.head, ?_, ?_, ?_, h.dNonneg, fun x hx => h.pendSub x (List.mem_cons_of_mem _ hx)⟩
  · show dist1.length = n
    rw [setAt_length hd1]; exact hc.lenD
  · show prev1.length = n
    rw [setAt_length hp1]; exact hc.lenP
  · exact hkeep start 0 (Ne.symm hvstart) hc.startD
  · show getAt prev1 start = some (-1)
    rw [hPo start (Ne.symm hvstart)]; exact hc.startP
  · intro e he
    rcases List.mem_cons.1 he with rfl | he
    · exact ⟨by show (0 : ℚ) ≤ d + r.distance; linarith, d + r.distance, hDs, le_refl _⟩
    · obtain ⟨h0, dx, hdx, hle⟩ := hc.pqOK e he
      by_cases hev : e.2 = r.destination
      · refine ⟨h0, d + r.distance, ?_, ?_⟩
        · show getAt dist1 e.2 = _
          rw [hev]; exact hDs
        · have := hold dx (hev ▸ hdx)
          linarith
      · exact ⟨h0, dx, hkeep e.2 dx hev hdx, hle⟩
  · intro x hx
    obtain ⟨dx, hdx, hall⟩ := hc.sDist x hx
    refine ⟨dx, hkeep x dx (hneS x hx) hdx, ?_⟩
    intro e he
    rcases List.mem_cons.1 he with rfl | he
    · obtain ⟨dx1, hdx1, hle⟩ := h.low x hx
      have := finiteAt_inj hdx hdx1
      show dx ≤ d + r.distance
      linarith
    · exact hall e he
  · intro x hx r1 hr1
    rcases hc.sRoads x hx r1 hr1 with ⟨hh, hp⟩ | ⟨du, dv, hdu, hdv, hle⟩
    · rcases List.mem_cons.1 hp with rfl | hp
      · have hxu : x = u := by
          have := h.head
          rw [hh] at this
          exact Option.some.inj this
        subst hxu
        exact Or.inr ⟨d, d + r1.distance, hkeep x d (Ne.symm hvu) h.atU, hDs, le_refl _⟩
      · exact Or.inl ⟨hh, hp⟩
    · by_cases hev : r1.destination = r.destination
      · refine Or.inr ⟨du, d + r.distance, hkeep x du (hneS x hx) hdu, ?_, ?_⟩
        · show getAt dist1 r1.destination = _
          rw [hev]; exact hDs
        · have := hold dv (hev ▸ hdv)
          linarith
      · exact Or.inr ⟨du, dv, hkeep x du (hneS x hx) hdu, hkeep _ dv hev hdv, hle⟩
  · intro x p hp hpne
    by_cases hxv : x = r.destination
    · subst hxv
      have hpu : p = u := by
        have : getAt prev1 r.destination = some p := hp
        rw [hPs] at this
        exact (Option.some.inj this).symm
      subst hpu
      exact ⟨huS, r, hrR, rfl, d, hkeep p d (Ne.symm hvu) h.atU, hDs⟩
    · have hp2 : getAt st.prev x = some p := by
        rw [← hPo x hxv]; exact hp
      obtain ⟨hpS, r1, hr1, hdest, du, hdu, hdx⟩ := hc.prevOK x p hp2 hpne
      exact ⟨hpS, r1, hr1, hdest, du, hkeep p du (hneS p hpS) hdu, hkeep x _ hxv hdx⟩
  · intro x hx
    have hx1 : getAt dist1 x = some none := hx
    have hxv : x ≠ r.destination := by
      intro e
      rw [e, hDs] at hx1
      simp at hx1
    show getAt prev1 x = some (-1)
    rw [hPo x hxv]
    apply hc.prevNone
    rw [← hDo x hxv]; exact hx1
  · intro x dx hdx hp
    have hp2 : getAt prev1 x = some (-1) := hp
    have hxv : x ≠ r.destination := by
      intro e
      rw [e, hPs] at hp2
      exact hu0 (Option.some.inj hp2)
    apply hc.prevRoot x dx
    · show getAt st.dist x = _
      rw [← hDo x hxv]; exact hdx
    · rw [← hPo x hxv]; exact hp2
  · exact chainOK_congr (fun x hx => hPo x (hneS x hx)) hc.chain
  · intro x dx hdx hxS
    have hdx1 : getAt dist1 x = some (some dx) := hdx
    by_cases hxv : x = r.destination
    · subst hxv
      rw [hDs] at hdx1
      have : d + r.distance = dx := Option.some.inj (Option.some.inj hdx1)
      show (dx, r.destination) ∈ (d + r.distance, r.destination) :: st.pq
      rw [this]
      exact List.mem_cons_self _ _
    · apply List.mem_cons_of_mem
      apply h.inv.opn x dx _ hxS
      show getAt st.dist x = _
      rw [← hDo x hxv]; exact hdx1
  · exact hkeep u d (Ne.symm hvu) h.atU
  · intro x hx
    obtain ⟨dx, hdx, hle⟩ := h.low x hx
    exact ⟨dx, hkeep x dx (hneS x hx) hdx, hle⟩
  · intro e he
    rcases List.mem_cons.1 he with rfl | he
    · show d ≤ d + r.distance
      linarith
    · exact h.mins e he

theorem relaxRoad_inv {R : Int → List Road} {n : Nat} {start end_ : Int} {S : List Int}
    {r : Road} {rest : List Road} {st : DState} {u : Int} {d : ℚ}
    (hG : GraphOK R n)
    (h : InvIn R n start end_ S (r :: rest) st u d) :
    ∃ st1, relaxRoad u d st r = some st1 ∧ InvIn R n start end_ S rest st1 u d ∧
      st1.pq.length ≤ st.pq.length + 1 ∧ st1.adjList = st.adjList := by
  have hc := h.inv.core
  have hrR : r ∈ R u := h.pendSub r (List.mem_cons_self _ _)
  obtain ⟨_, hv0, hv1⟩ := hG u r hrR
  obtain ⟨dvo, hdvo⟩ := getAt_of_range (l := st.dist) hv0 (by rw [hc.lenD]; exact hv1)
  by_cases hlt : distLt (d + r.distance) dvo = true
  · have hd1 := setAt_of_range (l := st.dist) (some (d + r.distance)) hv0
      (by rw [hc.lenD]; exact hv1)
    have hp1 := setAt_of_range (l := st.prev) u hv0 (by rw [hc.lenP]; exact hv1)
    refine ⟨_, ?_, relaxRoad_update hG h hdvo hlt hd1 hp1, ?_, rfl⟩
    · simp only [relaxRoad, hdvo, hlt, hd1, hp1, if_true]
    · simp
  · refine ⟨st, ?_, ?_, by omega, rfl⟩
    · simp only [relaxRoad, hdvo, hlt]
      simp
    · cases dvo with
      | none => simp [distLt] at hlt
      | some dv =>
        have hle : dv ≤ d + r.distance := by
          simpa [distLt] using hlt
        exact relaxRoad_keep h hdvo hle

theorem relaxAll_inv {R : Int → List Road} {n : Nat} {start end_ : Int} {S : List Int}
    {u : Int} {d : ℚ} (hG : GraphOK R n) :
    ∀ (pend : List Road) (st : DState), InvIn R n start end_ S pend st u d →
      ∃ st1, relaxAll u d st pend = some st1 ∧ InvIn R n start end_ S [] st1 u d ∧
        st1.pq.length ≤ st.pq.length + pend.length ∧ st1.adjList = st.adjList := by
  intro pend
  induction pend with
  | nil =>
    intro st h
    exact ⟨st, rfl, h, by simp, rfl⟩
  | cons r rest ih =>
    intro st h
    obtain ⟨st1, he1, h1, hl1, ha1⟩ := relaxRoad_inv hG h
    obtain ⟨st2, he2, h2, hl2, ha2⟩ := ih st1 h1
    refine ⟨st2, ?_, h2, ?_, ha2.trans ha1⟩
    · simp only [relaxAll, he1]
      exact he2
    · simp only [List.length_cons]
      omega

theorem relaxAll_noop (u : Int) (d : ℚ) (st : DState) :
    ∀ roads : List Road,
      (∀ r ∈ roads, ∃ dv, FiniteAt st r.destination dv ∧ dv ≤ d + r.distance) →
      relaxAll u d st roads = some st := by
  intro roads
  induction roads with
  | nil => intro _; rfl
  | cons r rest ih =>
    intro h
    obtain ⟨dv, hdv, hle⟩ := h r (List.mem_cons_self _ _)
    have h1 : relaxRoad u d st r = some st := by
      unfold FiniteAt at hdv
      have : ¬ (d + r.distance < dv) := not_lt.mpr hle
      simp [relaxRoad, hdv, distLt, this]
    simp only [relaxAll, h1]
    exact ih (fun r1 hr1 => h r1 (List.mem_cons_of_mem _ hr1))

/-! ## `operator[]` on the adjacency map -/

theorem adjIndex_snd {m : AdjList} {R : Int → List Road}
    (hadj : ∀ k, (match m k with | some rs => rs | none => []) = R k) (u : Int) :
    (adjIndex m u).2 = R u := by
  have := hadj u
  unfold adjIndex
  cases hm : m u with
  | none => simp [hm] at this ⊢; exact this
  | some rs => simp [hm] at this ⊢; exact this

theorem adjIndex_fst_of_some {m : AdjList} {u : Int} (h : m u ≠ none) :
    (adjIndex m u).1 = m := by
  unfold adjIndex
  cases hm : m u with
  | none => exact absurd hm h
  | some rs => rfl

theorem adjIndex_fst_roads (m : AdjList) (u k : Int) :
    (match (adjIndex m u).1 k with | some rs => rs | none => []) =
      (match m k with | some rs => rs | none => []) := by
  unfold adjIndex
  cases hm : m u with
  | some rs => rfl
  | none =>
    by_cases hk : k = u
    · subst hk
      simp [hm]
    · simp [hk]

theorem adjIndex_fst_self (m : AdjList) (u : Int) : (adjIndex m u).1 u ≠ none := by
  unfold adjIndex
  cases hm : m u with
  | some rs => simp [hm]
  | none => simp

theorem adjIndex_fst_other {m : AdjList} {u k : Int} (h : m k ≠ none) :
    (adjIndex m u).1 k ≠ none := by
  unfold adjIndex
  cases hm : m u with
  | some rs => simpa using h
  | none =>
    by_cases hk : k = u
    · simp [hk]
    · simpa [hk] using h

/-! ## The termination measure -/

theorem pendingRoads_cons_ge (R : Int → List Road) (S : List Int) (u : Int) :
    ∀ k : Nat, (k : Int) ≤ u → pendingRoads R (u :: S) k = pendingRoads R S k := by
  intro k
  induction k with
  | zero => intro _; rfl
  | succ k ih =>
    intro hk
    have hne : (k : Int) ≠ u := by omega
    simp only [pendingRoads, List.mem_cons, hne, false_or]
    rw [ih (by omega)]

theorem pendingRoads_cons (R : Int → List Road) (S : List Int) (u : Int) (huS : u ∉ S)
    (h0 : 0 ≤ u) : ∀ k : Nat, u < (k : Int) →
      pendingRoads R (u :: S) k + (R u).length = pendingRoads R S k := by
  intro k
  induction k with
  | zero => intro h; omega
  | succ k ih =>
    intro hk
    by_cases hku : (k : Int) = u
    · have h1 := pendingRoads_cons_ge R S u k (by omega)
      have h2 : (k : Int) ∉ S := hku ▸ huS
      simp only [pendingRoads, List.mem_cons, hku, true_or, if_true]
      rw [h1]
      rw [hku] at h2
      simp [h2]
    · have h1 := ih (by omega)
      simp only [pendingRoads, List.mem_cons, hku, false_or]
      omega

/-! ## One iteration of the `while` loop -/

theorem erase_subset_mem {pq : List (ℚ × Int)} {top e : ℚ × Int}
    (h : e ∈ pq.erase top) : e ∈ pq :=
  List.mem_of_mem_erase h

theorem step_settled {R : Int → List Road} {n : Nat} {start end_ : Int} {S : List Int}
    {st : DState} {top : ℚ × Int}
    (h : Inv R n start end_ S [] st) (htop : pqTop st.pq = some top) (huS : top.2 ∈ S) :
    relaxAll top.2 top.1
        ⟨st.dist, st.prev, st.pq.erase top, (adjIndex st.adjList top.2).1⟩
        (adjIndex st.adjList top.2).2
      = some ⟨st.dist, st.prev, st.pq.erase top, st.adjList⟩ ∧
    Inv R n start end_ S [] ⟨st.dist, st.prev, st.pq.erase top, st.adjList⟩ := by
  have hc := h.core
  have hmem : top ∈ st.pq := pqTop_mem htop
  obtain ⟨h0, du0, hdu0, hle0⟩ := hc.pqOK top hmem
  have hadj : (adjIndex st.adjList top.2).1 = st.adjList :=
    adjIndex_fst_of_some (hc.adjS _ huS)
  constructor
  · rw [hadj, adjIndex_snd hc.adj]
    apply relaxAll_noop
    intro r hr
    rcases hc.sRoads _ huS r hr with ⟨_, hp⟩ | ⟨du, dv, hdu, hdv, hle⟩
    · simp at hp
    · have := finiteAt_inj hdu hdu0
      exact ⟨dv, hdv, by linarith⟩
  · refine ⟨⟨hc.lenD, hc.lenP, hc.adj, hc.adjS, hc.startD, hc.startP, ?_, hc.sNodup, hc.sEnd,
      ?_, hc.sRoads, hc.prevOK, hc.prevNone, hc.prevRoot, hc.chain⟩, ?_⟩
    · intro e he
      exact hc.pqOK e (erase_subset_mem he)
    · intro x hx
      obtain ⟨dx, hdx, hall⟩ := hc.sDist x hx
      exact ⟨dx, hdx, fun e he => hall e (erase_subset_mem he)⟩
    · intro x dx hdx hxS
      have hin := h.opn x dx hdx hxS
      have hne : (dx, x) ≠ top := by
        intro e
        apply hxS
        rw [← e] at huS
        exact huS
      exact (List.mem_erase_of_ne hne).2 hin

theorem step_fresh {R : Int → List Road} {n : Nat} {start end_ : Int} {S : List Int}
    {st : DState} {top : ℚ × Int}
    (h : Inv R n start end_ S [] st) (htop : pqTop st.pq = some top)
    (hne : top.2 ≠ end_) (huS : top.2 ∉ S) :
    InvIn R n start end_ (top.2 :: S) (R top.2)
      ⟨st.dist, st.prev, st.pq.erase top, (adjIndex st.adjList top.2).1⟩ top.2 top.1 := by
  have hc := h.core
  have hmem : top ∈ st.pq := pqTop_mem htop
  obtain ⟨h0, du0, hdu0, hle0⟩ := hc.pqOK top hmem
  have hin := h.opn _ du0 hdu0 huS
  have hge : top.1 ≤ du0 := pqTop_key_le htop _ hin
  have heq : du0 = top.1 := le_antisymm hle0 hge
  subst heq
  refine ⟨⟨⟨hc.lenD, hc.lenP, ?_, ?_, hc.startD, hc.startP, ?_, ?_, ?_, ?_, ?_, ?_,
    hc.prevNone, hc.prevRoot, ?_⟩, ?_⟩, rfl, hdu0, ?_, ?_, h0, fun r hr => hr⟩
  · intro k
    show (match (adjIndex st.adjList top.2).1 k with | some rs => rs | none => []) = R k
    rw [adjIndex_fst_roads]
    exact hc.adj k
  · intro x hx
    show (adjIndex st.adjList top.2).1 x ≠ none
    rcases List.mem_cons.1 hx with rfl | hx
    · exact adjIndex_fst_self _ _
    · exact adjIndex_fst_other (hc.adjS x hx)
  · intro e he
    exact hc.pqOK e (erase_subset_mem he)
  · exact List.nodup_cons.2 ⟨huS, hc.sNodup⟩
  · intro hx
    rcases List.mem_cons.1 hx with hx | hx
    · exact hne hx.symm
    · exact hc.sEnd hx
  · intro x hx
    rcases List.mem_cons.1 hx with rfl | hx
    · exact ⟨_, hdu0, fun e he => pqTop_key_le htop e (erase_subset_mem he)⟩
    · obtain ⟨dx, hdx, hall⟩ := hc.sDist x hx
      exact ⟨dx, hdx, fun e he => hall e (erase_subset_mem he)⟩
  · intro x hx r hr
    rcases List.mem_cons.1 hx with rfl | hx
    · exact Or.inl ⟨rfl, hr⟩
    · rcases hc.sRoads x hx r hr with ⟨_, hp⟩ | hb
      · simp at hp
      · exact Or.inr hb
  · intro v p hp hpne
    obtain ⟨hpS, rest⟩ := hc.prevOK v p hp hpne
    exact ⟨List.mem_cons_of_mem _ hpS, rest⟩
  · refine ⟨?_, hc.chain⟩
    intro p hp
    by_cases hp1 : p = -1
    · exact Or.inl hp1
    · exact Or.inr (hc.prevOK _ p hp hp1).1
  · intro x dx hdx hxS
    have hx1 : x ≠ top.2 := fun e => hxS (e ▸ List.mem_cons_self _ _)
    have hx2 : x ∉ S := fun e => hxS (List.mem_cons_of_mem _ e)
    have hin2 := h.opn x dx hdx hx2
    have hne2 : (dx, x) ≠ top := by
      intro e
      apply hx1
      rw [← e]
    exact (List.mem_erase_of_ne hne2).2 hin2
  · intro x hx
    rcases List.mem_cons.1 hx with rfl | hx
    · exact ⟨_, hdu0, le_refl _⟩
    · obtain ⟨dx, hdx, hall⟩ := hc.sDist x hx
      exact ⟨dx, hdx, hall top hmem⟩
  · intro e he
    exact pqTop_key_le htop e (erase_subset_mem he)

theorem step_inv {R : Int → List Road} {n : Nat} {start end_ : Int} {S : List Int}
    {st : DState} {top : ℚ × Int} (hG : GraphOK R n)
    (h : Inv R n start end_ S [] st) (htop : pqTop st.pq = some top) (hne : top.2 ≠ end_) :
    ∃ S1 st2,
      relaxAll top.2 top.1
        ⟨st.dist, st.prev, st.pq.erase top, (adjIndex st.adjList top.2).1⟩
        (adjIndex st.adjList top.2).2 = some st2 ∧
      Inv R n start end_ S1 [] st2 ∧
      st2.pq.length + pendingRoads R S1 n < st.pq.length + pendingRoads R S n := by
  have hc := h.core
  have hmem : top ∈ st.pq := pqTop_mem htop
  have hpos : 0 < st.pq.length := List.length_pos_of_mem hmem
  have hlen : (st.pq.erase top).length = st.pq.length - 1 := by
    rw [List.length_erase_of_mem hmem]
  by_cases huS : top.2 ∈ S
  · obtain ⟨he, hi⟩ := step_settled h htop huS
    refine ⟨S, _, he, hi, ?_⟩
    show (st.pq.erase top).length + _ < _
    omega
  · have hin := step_fresh h htop hne huS
    rw [← adjIndex_snd hc.adj top.2] at hin
    obtain ⟨st2, he, h2, hl, _⟩ := relaxAll_inv hG _ _ hin
    refine ⟨top.2 :: S, st2, he, h2.inv, ?_⟩
    obtain ⟨_, du0, hdu0, _⟩ := hc.pqOK top hmem
    have hr := getAt_some_range hdu0
    rw [hc.lenD] at hr
    have hm := pendingRoads_cons R S top.2 huS hr.1 n hr.2
    rw [adjIndex_snd hc.adj top.2] at hl
    have hl2 : st2.pq.length ≤ (st.pq.erase top).length + (R top.2).length := hl
    omega

/-! ## Routes against the invariant -/

theorem routeWeight_nonneg {g : MapGraph} {n : Nat} (hG : GraphOK g.getRoadsFrom n) :
    ∀ (rs : List Road) (u v : Int), IsRoute g u rs v → 0 ≤ routeWeight rs := by
  intro rs
  induction rs with
  | nil => intro _ _ _; exact le_refl _
  | cons r rest ih =>
    intro u v h
    have h1 := (hG u r h.1).1
    have h2 := ih _ _ h.2
    show 0 ≤ r.distance + routeWeight rest
    linarith

theorem route_from_settled {g : MapGraph} {n : Nat} {start end_ : Int} {S : List Int}
    {st : DState} (hG : GraphOK g.getRoadsFrom n)
    (h : Inv g.getRoadsFrom n start end_ S [] st) :
    ∀ (rs : List Road) (u v : Int) (du : ℚ), u ∈ S → FiniteAt st u du → IsRoute g u rs v →
      (∃ dv, FiniteAt st v dv ∧ dv ≤ du + routeWeight rs) ∨
      (∃ e ∈ st.pq, e.1 ≤ du + routeWeight rs) := by
  intro rs
  induction rs with
  | nil =>
    intro u v du _ hdu hr
    have : u = v := hr
    subst this
    exact Or.inl ⟨du, hdu, by simp [routeWeight]⟩
  | cons r rest ih =>
    intro u v du huS hdu hr
    have hw := routeWeight_nonneg hG rest _ _ hr.2
    rcases h.core.sRoads u huS r hr.1 with ⟨_, hp⟩ | ⟨du1, dx, hdu1, hdx, hle⟩
    · simp at hp
    · have hE := finiteAt_inj hdu hdu1
      subst hE
      by_cases hxS : r.destination ∈ S
      · rcases ih _ v dx hxS hdx hr.2 with ⟨dv, hdv, hle2⟩ | ⟨e, he, hle2⟩
        · exact Or.inl ⟨dv, hdv, by simp only [routeWeight]; linarith⟩
        · exact Or.inr ⟨e, he, by simp only [routeWeight]; linarith⟩
      · refine Or.inr ⟨(dx, r.destination), h.opn _ dx hdx hxS, ?_⟩
        simp only [routeWeight]
        linarith

theorem route_from_start {g : MapGraph} {n : Nat} {start end_ : Int} {S : List Int}
    {st : DState} (hG : GraphOK g.getRoadsFrom n)
    (h : Inv g.getRoadsFrom n start end_ S [] st)
    (rs : List Road) (v : Int) (hr : IsRoute g start rs v) :
    (∃ dv, FiniteAt st v dv ∧ dv ≤ routeWeight rs) ∨ (∃ e ∈ st.pq, e.1 ≤ routeWeight rs) := by
  by_cases hsS : start ∈ S
  · have := route_from_settled hG h rs start v 0 hsS h.core.startD hr
    simpa using this
  · exact Or.inr ⟨(0, start), h.opn _ 0 h.core.startD hsS, routeWeight_nonneg hG rs _ _ hr⟩

theorem core_erase {R : Int → List Road} {n : Nat} {start end_ : Int} {S : List Int}
    {pend : List Road} {st : DState} (hc : Core R n start end_ S pend st) (top : ℚ × Int) :
    Core R n start end_ S pend ⟨st.dist, st.prev, st.pq.erase top, st.adjList⟩ := by
  refine ⟨hc.lenD, hc.lenP, hc.adj, hc.adjS, hc.startD, hc.startP, ?_, hc.sNodup, hc.sEnd,
      ?_, hc.sRoads, hc.prevOK, hc.prevNone, hc.prevRoot, hc.chain⟩
  · intro e he
    exact hc.pqOK e (erase_subset_mem he)
  · intro x hx
    obtain ⟨dx, hdx, hall⟩ := hc.sDist x hx
    exact ⟨dx, hdx, fun e he => hall e (erase_subset_mem he)⟩

/-! ## The `while` loop as a whole -/

theorem relaxLoop_run (g : MapGraph) (n : Nat) (start end_ : Int)
    (hG : GraphOK g.getRoadsFrom n) :
    ∀ (fuel : Nat) (st : DState) (S : List Int),
      Inv g.getRoadsFrom n start end_ S [] st →
      (relaxLoop end_ fuel st = Outcome.outOfFuel ∧
        fuel ≤ st.pq.length + pendingRoads g.getRoadsFrom S n) ∨
      ∃ S1 st1, relaxLoop end_ fuel st = Outcome.done st1 ∧
        Core g.getRoadsFrom n start end_ S1 [] st1 ∧
        (∀ rs, IsRoute g start rs end_ → ∃ de, FiniteAt st1 end_ de ∧ de ≤ routeWeight rs) := by
  intro fuel
  induction fuel with
  | zero =>
    intro st S _
    exact Or.inl ⟨rfl, by omega⟩
  | succ fuel ih =>
    intro st S h
    cases htop : pqTop st.pq with
    | none =>
      right
      refine ⟨S, st, by simp only [relaxLoop, htop], h.core, ?_⟩
      intro rs hr
      rcases route_from_start hG h rs end_ hr with hl | ⟨e, he, _⟩
      · exact hl
      · rw [pqTop_eq_none htop] at he
        simp at he
    | some top =>
      by_cases hend : top.2 = end_
      · right
        refine ⟨S, ⟨st.dist, st.prev, st.pq.erase top, st.adjList⟩, ?_, core_erase h.core top, ?_⟩
        · simp only [relaxLoop, htop, hend, if_true]
        · intro rs hr
          rcases route_from_start hG h rs end_ hr with hl | ⟨e, he, hle⟩
          · exact hl
          · obtain ⟨_, du0, hdu0, hle0⟩ := h.core.pqOK top (pqTop_mem htop)
            have := pqTop_key_le htop e he
            rw [hend] at hdu0
            exact ⟨du0, hdu0, by linarith⟩
      · obtain ⟨S1, st2, he, h2, hm⟩ := step_inv hG h htop hend
        have hunf : relaxLoop end_ (fuel + 1) st = relaxLoop end_ fuel st2 := by
          simp only [relaxLoop, htop, hend, if_false]
          rw [he]
        rw [hunf]
        rcases ih st2 S1 h2 with ⟨ho, hf⟩ | hd
        · exact Or.inl ⟨ho, by omega⟩
        · exact Or.inr hd

/-! ## The state on entry to the loop -/

theorem pendingRoads_nil (g : MapGraph) :
    ∀ k : Nat, pendingRoads g.getRoadsFrom [] k = totalRoads g k := by
  intro k
  induction k with
  | zero => rfl
  | succ k ih => simp [pendingRoads, totalRoads, ih]

theorem initState_inv (g : MapGraph) (start end_ : Int)
    (h0 : 0 ≤ start) (h1 : start < (g.locations.length : Int)) :
    ∃ st0, initState g start = some st0 ∧
      Inv g.getRoadsFrom g.locations.length start end_ [] [] st0 ∧
      st0.pq.length = 1 ∧ st0.adjList = g.adjList := by
  have hs := setAt_of_range (l := List.replicate g.locations.length (none : Option ℚ))
    (some (0 : ℚ)) h0 (by simpa using h1)
  have hDs := getAt_setAt_same hs
  have hDo : ∀ j, j ≠ start → ∀ x, getAt ((List.replicate g.locations.length
      (none : Option ℚ)).set start.toNat (some 0)) j = some x → x = none := by
    intro j hj x hx
    rw [getAt_setAt_other hs hj] at hx
    exact getAt_replicate_some hx
  have hfin : ∀ v dv, getAt ((List.replicate g.locations.length
      (none : Option ℚ)).set start.toNat (some 0)) v = some (some dv) → v = start ∧ dv = 0 := by
    intro v dv hv
    by_cases hvs : v = start
    · subst hvs
      rw [hDs] at hv
      exact ⟨rfl, (Option.some.inj (Option.some.inj hv)).symm⟩
    · have := hDo v hvs _ hv
      simp at this
  refine ⟨⟨_, List.replicate g.locations.length (-1 : Int), [(0, start)], g.adjList⟩, ?_,
    ⟨⟨?_, ?_, ?_, ?_, hDs, ?_, ?_, List.nodup_nil, List.not_mem_nil _, ?_, ?_, ?_, ?_, ?_,
      trivial⟩, ?_⟩, rfl, rfl⟩
  · simp only [initState, hs]
  · simp
  · simp
  · intro k
    rfl
  · intro u hu
    simp at hu
  · exact getAt_replicate h0 h1
  · intro e he
    simp at he
    subst he
    exact ⟨le_refl _, 0, hDs, le_refl _⟩
  · intro u hu
    simp at hu
  · intro u hu
    simp at hu
  · intro v u hp hne
    exact absurd (getAt_replicate_some hp) hne
  · intro v hv
    have hr := getAt_some_range hv
    simp at hr
    exact getAt_replicate hr.1 hr.2
  · intro v dv hv _
    exact (hfin v dv hv).1
  · intro v dv hv _
    obtain ⟨rfl, rfl⟩ := hfin v dv hv
    simp

/-! ## The backward walk -/

theorem walkBack_stop (prev : List Int) (fuel : Nat) (acc : List Int) :
    walkBack prev fuel (-1) acc = Outcome.done acc := by
  unfold walkBack
  simp

theorem walkBack_step {prev : List Int} {cur p : Int} (fuel : Nat) (acc : List Int)
    (hne : cur ≠ -1) (hp : getAt prev cur = some p) :
    walkBack prev (fuel + 1) cur acc = walkBack prev fuel p (acc ++ [cur]) := by
  rw [walkBack]
  simp only [hne, if_false, hp]

theorem pathWeight_snoc (g : MapGraph) (u p : Int) :
    ∀ P : List Int, P.getLast? = some p →
      pathWeight g (P ++ [u]) = pathWeight g P +
        (match cheapestTo (g.getRoadsFrom p) u with
          | some w => w
          | none => 0) := by
  intro P
  induction P with
  | nil => intro h; simp at h
  | cons a rest ih =>
    intro h
    cases rest with
    | nil =>
      simp at h
      subst h
      simp [pathWeight]
    | cons b rest2 =>
      have h2 : (b :: rest2).getLast? = some p := by
        rw [List.getLast?_cons_cons] at h
        exact h
      have h3 := ih h2
      show (match cheapestTo (g.getRoadsFrom a) b with
        | some w => w
        | none => 0) + pathWeight g ((b :: rest2) ++ [u]) = _
      rw [h3]
      simp only [pathWeight]
      ring

theorem cheapestTo_ge {q : Int} {w : ℚ} :
    ∀ (roads : List Road) (m : ℚ),
      (∀ r1 ∈ roads, r1.destination = q → w ≤ r1.distance) →
      cheapestTo roads q = some m → w ≤ m := by
  intro roads
  induction roads with
  | nil => intro m _ hc; simp [cheapestTo] at hc
  | cons a rest ih =>
    intro m hmin hc
    have hrest : ∀ r1 ∈ rest, r1.destination = q → w ≤ r1.distance :=
      fun r1 h1 => hmin r1 (List.mem_cons_of_mem _ h1)
    by_cases ha : a.destination = q
    · have hle := hmin a (List.mem_cons_self _ _) ha
      simp only [cheapestTo, ha, if_true] at hc
      cases hc2 : cheapestTo rest q with
      | none =>
        rw [hc2] at hc
        simp at hc
        rw [← hc]; exact hle
      | some m2 =>
        rw [hc2] at hc
        simp at hc
        rw [← hc]
        exact le_min hle (ih m2 hrest hc2)
    · simp only [cheapestTo, ha, if_false] at hc
      exact ih m hrest hc

theorem cheapestTo_eq {roads : List Road} {q : Int} {r : Road}
    (hr : r ∈ roads) (hq : r.destination = q)
    (hmin : ∀ r1 ∈ roads, r1.destination = q → r.distance ≤ r1.distance) :
    cheapestTo roads q = some r.distance := by
  induction roads with
  | nil => simp at hr
  | cons a rest ih =>
    have hrest : ∀ r1 ∈ rest, r1.destination = q → r.distance ≤ r1.distance :=
      fun r1 h1 => hmin r1 (List.mem_cons_of_mem _ h1)
    by_cases ha : a.destination = q
    · have hle := hmin a (List.mem_cons_self _ _) ha
      by_cases hin : r ∈ rest
      · simp only [cheapestTo, ha, if_true, ih hin hrest]
        rw [min_eq_right hle]
      · have hra : r = a := by
          rcases List.mem_cons.1 hr with h | h
          · exact h
          · exact absurd h hin
        subst hra
        simp only [cheapestTo, ha, if_true]
        cases hc : cheapestTo rest q with
        | none => rfl
        | some m =>
          simp only
          rw [min_eq_left (cheapestTo_ge rest m hrest hc)]
    · have hin : r ∈ rest := by
        rcases List.mem_cons.1 hr with h | h
        · exact absurd (h ▸ hq) ha
        · exact h
      simp only [cheapestTo, ha, if_false]
      exact ih hin hrest

theorem trail_mono {g : MapGraph} {st : DState} {start u : Int} {L L1 : Nat}
    (h : Trail g st start u L) (hL : L ≤ L1) : Trail g st start u L1 := by
  obtain ⟨P, du, hdu, hhead, hlast, hchain, hw, hlen, hwalk⟩ := h
  exact ⟨P, du, hdu, hhead, hlast, hchain, hw, by omega,
    fun fuel hf acc => hwalk fuel (by omega) acc⟩

theorem trail_step {g : MapGraph} {n : Nat} {start end_ : Int} {S : List Int} {st : DState}
    (hc : Core g.getRoadsFrom n start end_ S [] st) {u p : Int} {du : ℚ} {L : Nat}
    (hu : FiniteAt st u du) (hp : getAt st.prev u = some p)
    (hrec : p ≠ -1 → Trail g st start p L) : Trail g st start u (L + 1) := by
  have hu0 : u ≠ -1 := by
    have := (getAt_some_range hu).1
    omega
  by_cases hp1 : p = -1
  · subst hp1
    have hus : u = start := hc.prevRoot u du hu hp
    subst hus
    have hd0 : du = 0 := finiteAt_inj hu hc.startD
    refine ⟨[u], du, hu, by simp, by simp, by simp, by simp [pathWeight, hd0], by simp, ?_⟩
    intro fuel hf acc
    cases fuel with
    | zero => omega
    | succ f =>
      rw [walkBack_step f acc hu0 hp, walkBack_stop]
      simp
  · obtain ⟨P1, dp, hdp, hhead, hlast, hchain, hw, hlen, hwalk⟩ := hrec hp1
    obtain ⟨hpS, r, hr, hdest, dp1, hdp1, hdu1⟩ := hc.prevOK u p hp hp1
    have e1 : dp1 = dp := finiteAt_inj hdp1 hdp
    subst e1
    have e2 : du = dp1 + r.distance := finiteAt_inj hu hdu1
    have hmin : ∀ r1 ∈ g.getRoadsFrom p, r1.destination = u → r.distance ≤ r1.distance := by
      intro r1 hr1 hd1
      rcases hc.sRoads p hpS r1 hr1 with ⟨_, hx⟩ | ⟨dp2, dv, hdp2, hdv, hle⟩
      · simp at hx
      · rw [hd1] at hdv
        have e3 := finiteAt_inj hdv hu
        have e4 := finiteAt_inj hdp2 hdp
        linarith
    refine ⟨P1 ++ [u], du, hu, ?_, List.getLast?_concat _, ?_, ?_, by simp; omega, ?_⟩
    · cases P1 with
      | nil => simp at hhead
      | cons a t => simpa using hhead
    · rw [List.chain'_append]
      refine ⟨hchain, by simp, ?_⟩
      intro x hx y hy
      simp at hy
      have hxp : x = p := by
        rw [hlast] at hx
        simpa using hx.symm
      subst hxp
      subst hy
      exact ⟨r, hr, hdest⟩
    · rw [pathWeight_snoc g u p P1 hlast, cheapestTo_eq hr hdest hmin, hw, e2]
    · intro fuel hf acc
      cases fuel with
      | zero => omega
      | succ f =>
        rw [walkBack_step f acc hu0 hp, hwalk f (by omega)]
        simp

theorem trail_chain {g : MapGraph} {n : Nat} {start end_ : Int} {S : List Int} {st : DState}
    (hc : Core g.getRoadsFrom n start end_ S [] st) :
    ∀ b : List Int, (∀ x ∈ b, x ∈ S) → ChainOK st.prev b →
      ∀ u ∈ b, Trail g st start u b.length := by
  intro b
  induction b with
  | nil => intro _ _ u hu; simp at hu
  | cons x b1 ih =>
    intro hsub hch u hu
    have ih1 := ih (fun y hy => hsub y (List.mem_cons_of_mem _ hy)) hch.2
    rcases List.mem_cons.1 hu with rfl | hu
    · obtain ⟨du, hdu, _⟩ := hc.sDist u (hsub u (List.mem_cons_self _ _))
      have hr := getAt_some_range hdu
      rw [hc.lenD, ← hc.lenP] at hr
      obtain ⟨p, hp⟩ := getAt_of_range hr.1 hr.2
      refine trail_step hc hdu hp ?_
      intro hp1
      rcases hch.1 p hp with h | h
      · exact absurd h hp1
      · exact ih1 p h
    · exact trail_mono (ih1 u hu) (by simp)

theorem trail_any {g : MapGraph} {n : Nat} {start end_ : Int} {S : List Int} {st : DState}
    (hc : Core g.getRoadsFrom n start end_ S [] st) {u : Int} {du : ℚ}
    (hu : FiniteAt st u du) : Trail g st start u (S.length + 1) := by
  have hr := getAt_some_range hu
  rw [hc.lenD, ← hc.lenP] at hr
  obtain ⟨p, hp⟩ := getAt_of_range hr.1 hr.2
  refine trail_step hc hu hp ?_
  intro hp1
  exact trail_chain hc S (fun x hx => hx) hc.chain p (hc.prevOK u p hp hp1).1

theorem nodup_range_length {l : List Int} {n : Nat} (hnd : l.Nodup)
    (hr : ∀ x ∈ l, 0 ≤ x ∧ x < (n : Int)) : l.length ≤ n := by
  have h1 : l.toFinset ⊆ Finset.Ico (0 : Int) n := by
    intro x hx
    rw [List.mem_toFinset] at hx
    rw [Finset.mem_Ico]
    exact hr x hx
  have h2 := Finset.card_le_card h1
  rw [List.toFinset_card_of_nodup hnd, Int.card_Ico] at h2
  simpa using h2

theorem settled_length {R : Int → List Road} {n : Nat} {start end_ : Int} {S : List Int}
    {st : DState} (hc : Core R n start end_ S [] st)
    (h0 : 0 ≤ end_) (h1 : end_ < (n : Int)) : S.length + 1 ≤ n := by
  have hnd : (end_ :: S).Nodup := List.nodup_cons.2 ⟨hc.sEnd, hc.sNodup⟩
  have := nodup_range_length (n := n) hnd (by
    intro x hx
    rcases List.mem_cons.1 hx with rfl | hx
    · exact ⟨h0, h1⟩
    · obtain ⟨dx, hdx, _⟩ := hc.sDist x hx
      have hr := getAt_some_range hdx
      rw [hc.lenD] at hr
      exact hr)
  simpa using this

/-! ## From a joined sequence to a route -/

theorem cheapestTo_none {q : Int} :
    ∀ roads : List Road, (∀ r ∈ roads, r.destination ≠ q) → cheapestTo roads q = none := by
  intro roads
  induction roads with
  | nil => intro _; rfl
  | cons b t iht =>
    intro hno
    have hb := hno b (List.mem_cons_self _ _)
    simp only [cheapestTo, hb, if_false]
    exact iht (fun r hr => hno r (List.mem_cons_of_mem _ hr))

theorem cheapestTo_attained {q : Int} :
    ∀ roads : List Road, (∃ r ∈ roads, r.destination = q) →
      ∃ r0 ∈ roads, r0.destination = q ∧ cheapestTo roads q = some r0.distance := by
  intro roads
  induction roads with
  | nil => intro h; obtain ⟨r, hr, _⟩ := h; simp at hr
  | cons a rest ih =>
    intro _
    by_cases ha : a.destination = q
    · cases hc : cheapestTo rest q with
      | none =>
        exact ⟨a, List.mem_cons_self _ _, ha, by simp [cheapestTo, ha, hc]⟩
      | some m =>
        by_cases hle : a.distance ≤ m
        · exact ⟨a, List.mem_cons_self _ _, ha, by simp [cheapestTo, ha, hc, hle]⟩
        · have hex : ∃ r ∈ rest, r.destination = q := by
            by_contra hno
            push_neg at hno
            have : cheapestTo rest q = none := cheapestTo_none rest hno
            rw [this] at hc
            simp at hc
          obtain ⟨r0, hr0, hq0, hc0⟩ := ih hex
          rw [hc] at hc0
          have hm : m = r0.distance := Option.some.inj hc0
          refine ⟨r0, List.mem_cons_of_mem _ hr0, hq0, ?_⟩
          simp only [cheapestTo, ha, if_true, hc]
          rw [min_eq_right (le_of_lt (not_le.mp hle)), hm]
    · have hex : ∃ r ∈ rest, r.destination = q := by
        rename_i h
        obtain ⟨r, hr, hq⟩ := h
        rcases List.mem_cons.1 hr with rfl | hr
        · exact absurd hq ha
        · exact ⟨r, hr, hq⟩
      obtain ⟨r0, hr0, hq0, hc0⟩ := ih hex
      exact ⟨r0, List.mem_cons_of_mem _ hr0, hq0, by simp only [cheapestTo, ha, if_false]; exact hc0⟩

theorem path_route (g : MapGraph) (e : Int) :
    ∀ (P : List Int) (s : Int), List.Chain' (Joined g) P → P.head? = some s →
      P.getLast? = some e → ∃ rs, IsRoute g s rs e ∧ routeWeight rs = pathWeight g P := by
  intro P
  induction P with
  | nil => intro s _ h; simp at h
  | cons a rest ih =>
    intro s hch hh hl
    simp at hh
    subst hh
    cases rest with
    | nil =>
      simp at hl
      subst hl
      exact ⟨[], rfl, by simp [routeWeight, pathWeight]⟩
    | cons b rest2 =>
      rw [List.chain'_cons] at hch
      rw [List.getLast?_cons_cons] at hl
      obtain ⟨rs, hrs, hw⟩ := ih b hch.2 (by simp) hl
      obtain ⟨r0, hr0, hq0, hc0⟩ := cheapestTo_attained (g.getRoadsFrom a) hch.1
      refine ⟨r0 :: rs, ⟨hr0, by rw [hq0]; exact hrs⟩, ?_⟩
      simp only [routeWeight, pathWeight, hc0, hw]

/-! ## The query as a whole -/

theorem graphOK_of {g : MapGraph} (hW : WeightsNonneg g) (hD : DestsValid g) :
    GraphOK g.getRoadsFrom g.locations.length := by
  intro k r hr
  have h1 := hD k r hr
  exact ⟨hW k r hr, h1.1, h1.2⟩

theorem fuelBound_loop (g : MapGraph) {start : Int} (hs : ValidIndex g start) {fuel : Nat}
    (hf : fuelBound g ≤ fuel) : 1 + totalRoads g g.locations.length < fuel := by
  have h1 : start < (g.locations.length : Int) := hs.2
  have h0 := hs.1
  unfold fuelBound at hf
  omega

theorem query_loop (g : MapGraph) (start end_ : Int) (fuel : Nat)
    (hW : WeightsNonneg g) (hD : DestsValid g) (hs : ValidIndex g start)
    (hf : 1 + totalRoads g g.locations.length < fuel) :
    ∃ st0 S st, initState g start = some st0 ∧ relaxLoop end_ fuel st0 = Outcome.done st ∧
      Core g.getRoadsFrom g.locations.length start end_ S [] st ∧
      (∀ rs, IsRoute g start rs end_ → ∃ de, FiniteAt st end_ de ∧ de ≤ routeWeight rs) := by
  obtain ⟨st0, hi, hinv, hlen, _⟩ := initState_inv g start end_ hs.1 hs.2
  rcases relaxLoop_run g _ start end_ (graphOK_of hW hD) fuel st0 [] hinv with ⟨_, hle⟩ | hd
  · rw [hlen, pendingRoads_nil] at hle
    omega
  · obtain ⟨S, st, hrun, hc, hopt⟩ := hd
    exact ⟨st0, S, st, hi, hrun, hc, hopt⟩

theorem walk_total {g : MapGraph} {start end_ : Int} {S : List Int} {st : DState}
    (hc : Core g.getRoadsFrom g.locations.length start end_ S [] st)
    (v : Int) (hv : ValidIndex g v) :
    ∃ walked : List Int, walked.length ≤ g.locations.length ∧
      ∀ fuel, g.locations.length ≤ fuel →
        walkBack st.prev fuel v [] = Outcome.done walked := by
  have hv1 : v < (g.locations.length : Int) := hv.2
  have hn : 1 ≤ g.locations.length := by have := hv.1; omega
  have hSr : ∀ x ∈ S, 0 ≤ x ∧ x < (g.locations.length : Int) := by
    intro x hx
    obtain ⟨dx, hdx, _⟩ := hc.sDist x hx
    have hr := getAt_some_range hdx
    rw [hc.lenD] at hr
    exact hr
  obtain ⟨dvo, hdvo⟩ := getAt_of_range (l := st.dist) hv.1 (by rw [hc.lenD]; exact hv1)
  cases dvo with
  | none =>
    have hp := hc.prevNone v hdvo
    refine ⟨[v], by simpa using hn, ?_⟩
    intro fuel hf
    cases fuel with
    | zero => omega
    | succ f =>
      have hne : v ≠ -1 := by have := hv.1; omega
      rw [walkBack_step f [] hne hp, walkBack_stop]
      simp
  | some dv =>
    have hL : ∃ L, L ≤ g.locations.length ∧ Trail g st start v L := by
      by_cases hvS : v ∈ S
      · exact ⟨S.length, nodup_range_length hc.sNodup hSr,
          trail_chain hc S (fun x hx => hx) hc.chain v hvS⟩
      · refine ⟨S.length + 1, ?_, trail_any hc hdvo⟩
        have hnd : (v :: S).Nodup := List.nodup_cons.2 ⟨hvS, hc.sNodup⟩
        have := nodup_range_length (n := g.locations.length) hnd (by
          intro x hx
          rcases List.mem_cons.1 hx with rfl | hx
          · exact ⟨hv.1, hv1⟩
          · exact hSr x hx)
        simpa using this
    obtain ⟨L, hLn, P, _, _, _, _, _, _, hlen, hwalk⟩ := hL
    refine ⟨P.reverse, by simp; omega, ?_⟩
    intro fuel hf
    have := hwalk fuel (by omega) []
    simpa using this

theorem query_trail (g : MapGraph) (start end_ : Int) (fuel : Nat)
    (hW : WeightsNonneg g) (hD : DestsValid g)
    (hs : ValidIndex g start) (he : ValidIndex g end_)
    (hreach : Reachable g start end_) (hf : fuelBound g ≤ fuel) :
    ∃ path g1 de, g.shortestPathByDistance start end_ fuel = Outcome.done (path, g1) ∧
      path.head? = some start ∧ path.getLast? = some end_ ∧
      List.Chain' (Joined g) path ∧ pathWeight g path = de ∧
      (∀ rs, IsRoute g start rs end_ → de ≤ routeWeight rs) ∧
      (∀ k, g1.getRoadsFrom k = g.getRoadsFrom k) := by
  obtain ⟨st0, S, st, hi, hrun, hc, hopt⟩ :=
    query_loop g start end_ fuel hW hD hs (fuelBound_loop g hs hf)
  obtain ⟨rs0, hrs0⟩ := hreach
  obtain ⟨de, hde, _⟩ := hopt rs0 hrs0
  obtain ⟨P, de1, hde1, hhead, hlast, hchain, hw, hlen, hwalk⟩ := trail_any hc hde
  have hSl := settled_length hc he.1 he.2
  have hfn : g.locations.length ≤ fuel := by unfold fuelBound at hf; omega
  have hwb := hwalk fuel (by omega) []
  refine ⟨P, { g with adjList := st.adjList }, de1, ?_, hhead, hlast, hchain, hw, ?_, hc.adj⟩
  · simp only [MapGraph.shortestPathByDistance, hi, hrun, hwb]
    simp
  · intro rs hrs
    obtain ⟨de2, hde2, hle⟩ := hopt rs hrs
    have := finiteAt_inj hde2 hde1
    linarith

/-- C1. For a store whose road weights are all `≥ 0` and whose road destinations
are all valid, and valid `start` and `end` with `end` reachable from `start`, the
query returns a sequence that begins with `start`, ends with `end`, has each
consecutive pair joined by a road of `getRoadsFrom`, and whose weight (cheapest
road between consecutive locations) is at most the weight of every route from
`start` to `end` and is the weight of one of them: it is the minimum. -/
theorem shortestPathByDistance_shortest (g : MapGraph) (start end_ : Int) (fuel : Nat)
    (hW : WeightsNonneg g) (hD : DestsValid g)
    (hs : ValidIndex g start) (he : ValidIndex g end_)
    (hreach : Reachable g start end_) (hf : fuelBound g ≤ fuel) :
    ∃ path g1, g.shortestPathByDistance start end_ fuel = Outcome.done (path, g1) ∧
      path.head? = some start ∧ path.getLast? = some end_ ∧
      List.Chain' (Joined g) path ∧
      (∀ rs, IsRoute g start rs end_ → pathWeight g path ≤ routeWeight rs) ∧
      (∃ rs, IsRoute g start rs end_ ∧ routeWeight rs = pathWeight g path) := by
  obtain ⟨path, g1, de, hq, hhead, hlast, hchain, hw, hmin, _⟩ :=
    query_trail g start end_ fuel hW hD hs he hreach hf
  refine ⟨path, g1, hq, hhead, hlast, hchain, ?_,
    path_route g end_ path start hchain hhead hlast⟩
  intro rs hrs
  rw [hw]
  exact hmin rs hrs

theorem query_returns (g : MapGraph) (start end_ : Int) (fuel : Nat)
    (hW : WeightsNonneg g) (hD : DestsValid g)
    (hs : ValidIndex g start) (he : ValidIndex g end_) (hf : fuelBound g ≤ fuel) :
    ∃ path g1, g.shortestPathByDistance start end_ fuel = Outcome.done (path, g1) ∧
      path.length ≤ g.locations.length := by
  obtain ⟨st0, S, st, hi, hrun, hc, _⟩ :=
    query_loop g start end_ fuel hW hD hs (fuelBound_loop g hs hf)
  obtain ⟨walked, hlen, hwalk⟩ := walk_total hc end_ he
  have hfn : g.locations.length ≤ fuel := by unfold fuelBound at hf; omega
  refine ⟨walked.reverse, { g with adjList := st.adjList }, ?_, by simpa using hlen⟩
  simp only [MapGraph.shortestPathByDistance, hi, hrun, hwalk fuel hfn]

/-- C3, as amended. For a store with non-negative road weights and valid road
destinations and valid `start` and `end` that no sequence of roads connects, the
query returns the one-element sequence `[end]` (and never the empty sequence). -/
theorem no_route_result (g : MapGraph) (start end_ : Int) (fuel : Nat)
    (hW : WeightsNonneg g) (hD : DestsValid g)
    (hs : ValidIndex g start) (he : ValidIndex g end_)
    (hno : ¬ Reachable g start end_) (hf : fuelBound g ≤ fuel) :
    ∃ g1, g.shortestPathByDistance start end_ fuel = Outcome.done ([end_], g1) ∧
      queryPath (g.shortestPathByDistance start end_ fuel) ≠ Outcome.done [] := by
  obtain ⟨st0, S, st, hi, hrun, hc, _⟩ :=
    query_loop g start end_ fuel hW hD hs (fuelBound_loop g hs hf)
  have he1 : end_ < (g.locations.length : Int) := he.2
  obtain ⟨dvo, hdvo⟩ := getAt_of_range (l := st.dist) he.1 (by rw [hc.lenD]; exact he1)
  cases dvo with
  | some de =>
    exfalso
    obtain ⟨P, _, _, hhead, hlast, hchain, _, _, _⟩ := trail_any hc hdvo
    obtain ⟨rs, hrs, _⟩ := path_route g end_ P start hchain hhead hlast
    exact hno ⟨rs, hrs⟩
  | none =>
    have hp := hc.prevNone end_ hdvo
    have hne : end_ ≠ -1 := by have := he.1; omega
    have hfn : 1 ≤ fuel := by unfold fuelBound at hf; omega
    refine ⟨{ g with adjList := st.adjList }, ?_⟩
    cases fuel with
    | zero => omega
    | succ f =>
      have hw : walkBack st.prev (f + 1) end_ [] = Outcome.done [end_] := by
        rw [walkBack_step f [] hne hp, walkBack_stop]
        rfl
      have hq : g.shortestPathByDistance start end_ (f + 1) =
          Outcome.done ([end_], { g with adjList := st.adjList }) := by
        simp only [MapGraph.shortestPathByDistance, hi, hrun, hw]
        rfl
      refine ⟨hq, ?_⟩
      rw [hq]
      simp [queryPath]

/-- C7. For a store with non-negative road weights and valid road destinations
and valid `start` and `end`, the `while` loop finishes within `fuelBound g`
extractions, on the state it leaves the backward walk from every valid location
(from `end` in particular) reaches `-1` within `locationCount` steps, and the
query returns, with a path of at most `locationCount` entries. -/
theorem shortestPathByDistance_terminates (g : MapGraph) (start end_ : Int)
    (hW : WeightsNonneg g) (hD : DestsValid g)
    (hs : ValidIndex g start) (he : ValidIndex g end_) :
    (∃ st0 st, initState g start = some st0 ∧
      relaxLoop end_ (fuelBound g) st0 = Outcome.done st ∧
      ∀ v, ValidIndex g v → ∃ walked,
        walkBack st.prev g.locations.length v [] = Outcome.done walked) ∧
    ∀ fuel, fuelBound g ≤ fuel →
      ∃ path g1, g.shortestPathByDistance start end_ fuel = Outcome.done (path, g1) ∧
        path.length ≤ g.locations.length := by
  constructor
  · obtain ⟨st0, S, st, hi, hrun, hc, _⟩ :=
      query_loop g start end_ (fuelBound g) hW hD hs (fuelBound_loop g hs (le_refl _))
    refine ⟨st0, st, hi, hrun, ?_⟩
    intro v hv
    obtain ⟨walked, _, hwalk⟩ := walk_total hc v hv
    exact ⟨walked, hwalk _ (le_refl _)⟩
  · intro fuel hf
    exact query_returns g start end_ fuel hW hD hs he hf

/-! ## No out-of-range access -/

theorem walkBack_in_range {prev : List Int}
    (hp : ∀ v p, getAt prev v = some p → p = -1 ∨ (0 ≤ p ∧ p < (prev.length : Int))) :
    ∀ (fuel : Nat) (v : Int) (acc : List Int),
      (v = -1 ∨ (0 ≤ v ∧ v < (prev.length : Int))) →
      walkBack prev fuel v acc ≠ Outcome.outOfRange := by
  intro fuel
  induction fuel with
  | zero =>
    intro v acc _
    unfold walkBack
    split <;> simp
  | succ f ih =>
    intro v acc hv
    by_cases hv1 : v = -1
    · subst hv1
      rw [walkBack_stop]
      simp
    · rcases hv with h | h
      · exact absurd h hv1
      · obtain ⟨p, hpv⟩ := getAt_of_range h.1 h.2
        rw [walkBack_step f acc hv1 hpv]
        exact ih p _ (hp v p hpv)

theorem core_prev_valid {R : Int → List Road} {n : Nat} {start end_ : Int} {S : List Int}
    {st : DState} (hc : Core R n start end_ S [] st) :
    ∀ v p, getAt st.prev v = some p → p = -1 ∨ (0 ≤ p ∧ p < (n : Int)) := by
  intro v p hp
  by_cases hp1 : p = -1
  · exact Or.inl hp1
  · right
    obtain ⟨dx, hdx, _⟩ := hc.sDist p (hc.prevOK v p hp hp1).1
    have hr := getAt_some_range hdx
    rw [hc.lenD] at hr
    exact hr

theorem mem_getAt {α : Type} {l : List α} {a : α} (h : a ∈ l) : ∃ i : Int, getAt l i = some a := by
  obtain ⟨k, hk⟩ := List.getElem?_of_mem h
  refine ⟨(k : Int), ?_⟩
  unfold getAt
  rw [if_neg (by omega)]
  simpa using hk

/-- C10. For a store with valid road destinations and non-negative weights and
valid `start` and `end`, whatever the fuel, neither the loop nor the query as a
whole ever reads or writes `dist` or `prev` out of range; when the loop
finishes both arrays still have `locationCount` entries, every entry of `prev`
is `-1` or a valid index, and the backward walk from `end` stays in range. -/
theorem shortestPathByDistance_in_range (g : MapGraph) (start end_ : Int)
    (hW : WeightsNonneg g) (hD : DestsValid g)
    (hs : ValidIndex g start) (he : ValidIndex g end_) (fuel : Nat) :
    g.shortestPathByDistance start end_ fuel ≠ Outcome.outOfRange ∧
    ∃ st0, initState g start = some st0 ∧
      relaxLoop end_ fuel st0 ≠ Outcome.outOfRange ∧
      ∀ st, relaxLoop end_ fuel st0 = Outcome.done st →
        st.dist.length = g.locations.length ∧ st.prev.length = g.locations.length ∧
        (∀ p ∈ st.prev, p = -1 ∨ ValidIndex g p) ∧
        ∀ f, walkBack st.prev f end_ [] ≠ Outcome.outOfRange := by
  obtain ⟨st0, hi, hinv, _, _⟩ := initState_inv g start end_ hs.1 hs.2
  have hrun := relaxLoop_run g _ start end_ (graphOK_of hW hD) fuel st0 [] hinv
  have hfinal : ∀ st, relaxLoop end_ fuel st0 = Outcome.done st →
      st.dist.length = g.locations.length ∧ st.prev.length = g.locations.length ∧
      (∀ p ∈ st.prev, p = -1 ∨ ValidIndex g p) ∧
      ∀ f, walkBack st.prev f end_ [] ≠ Outcome.outOfRange := by
    intro st hst
    rcases hrun with ⟨ho, _⟩ | ⟨S, st1, hd, hc, _⟩
    · rw [ho] at hst
      simp at hst
    · rw [hd] at hst
      have e : st1 = st := by simpa using hst
      subst e
      have hpv := core_prev_valid hc
      refine ⟨hc.lenD, hc.lenP, ?_, ?_⟩
      · intro p hp
        obtain ⟨i, hi2⟩ := mem_getAt hp
        exact hpv i p hi2
      · intro f
        apply walkBack_in_range
        · intro v p hvp
          rw [hc.lenP]
          exact hpv v p hvp
        · right
          rw [hc.lenP]
          exact he
  have hloop : relaxLoop end_ fuel st0 ≠ Outcome.outOfRange := by
    rcases hrun with ⟨ho, _⟩ | ⟨S, st1, hd, _, _⟩
    · rw [ho]; simp
    · rw [hd]; simp
  refine ⟨?_, st0, hi, hloop, hfinal⟩
  simp only [MapGraph.shortestPathByDistance, hi]
  cases hl : relaxLoop end_ fuel st0 with
  | outOfRange => exact absurd hl hloop
  | outOfFuel => simp
  | done st =>
    have hw := (hfinal st hl).2.2.2 fuel
    simp only
    cases hwb : walkBack st.prev fuel end_ [] with
    | outOfRange => exact absurd hwb hw
    | outOfFuel => simp
    | done path => simp

/-! ## Skipping stale entries -/

theorem staleEntry_of {R : Int → List Road} {n : Nat} {start end_ : Int} {S : List Int}
    {st : DState} {top : ℚ × Int}
    (h : Inv R n start end_ S [] st) (htop : pqTop st.pq = some top) :
    ∃ du, FiniteAt st top.2 du ∧ du ≤ top.1 ∧
      staleEntry ⟨st.dist, st.prev, st.pq.erase top, st.adjList⟩ top = some (decide (du < top.1)) ∧
      (du < top.1 → top.2 ∈ S) := by
  obtain ⟨_, du, hdu, hle⟩ := h.core.pqOK top (pqTop_mem htop)
  refine ⟨du, hdu, hle, ?_, ?_⟩
  · unfold FiniteAt at hdu
    simp only [staleEntry, hdu]
  · intro hlt
    by_contra huS
    have hin := h.opn _ du hdu huS
    have := pqTop_key_le htop _ hin
    simp at this
    linarith

theorem relaxLoopSkip_eq (g : MapGraph) (n : Nat) (start end_ : Int) (staleFirst : Bool)
    (hG : GraphOK g.getRoadsFrom n) :
    ∀ (fuel : Nat) (st : DState) (S : List Int),
      Inv g.getRoadsFrom n start end_ S [] st →
      relaxLoopSkip staleFirst end_ fuel st = relaxLoop end_ fuel st := by
  intro fuel
  induction fuel with
  | zero => intro st S _; rfl
  | succ fuel ih =>
    intro st S h
    cases htop : pqTop st.pq with
    | none => simp only [relaxLoopSkip, relaxLoop, htop]
    | some top =>
      obtain ⟨du, hdu, hle, hst, hS⟩ := staleEntry_of h htop
      by_cases hend : top.2 = end_
      · have hns : ¬ du < top.1 := by
          intro hlt
          exact h.core.sEnd (hend ▸ hS hlt)
        simp only [relaxLoopSkip, relaxLoop, htop, hst, hns, hend, decide_False, if_true]
        cases staleFirst <;> simp
      · by_cases hlt : du < top.1
        · obtain ⟨he, hi⟩ := step_settled h htop (hS hlt)
          have h1 : relaxLoop end_ (fuel + 1) st =
              relaxLoop end_ fuel ⟨st.dist, st.prev, st.pq.erase top, st.adjList⟩ := by
            simp only [relaxLoop, htop, hend, if_false]
            rw [he]
          have h2 : relaxLoopSkip staleFirst end_ (fuel + 1) st =
              relaxLoopSkip staleFirst end_ fuel
                ⟨st.dist, st.prev, st.pq.erase top, st.adjList⟩ := by
            simp only [relaxLoopSkip, htop, hst, hlt, hend, decide_True, if_false]
            cases staleFirst <;> simp
          rw [h1, h2]
          exact ih _ S hi
        · obtain ⟨S1, st2, he, h2i, _⟩ := step_inv hG h htop hend
          have h1 : relaxLoop end_ (fuel + 1) st = relaxLoop end_ fuel st2 := by
            simp only [relaxLoop, htop, hend, if_false]
            rw [he]
          have h2 : relaxLoopSkip staleFirst end_ (fuel + 1) st =
              relaxLoopSkip staleFirst end_ fuel st2 := by
            simp only [relaxLoopSkip, htop, hst, hlt, hend, decide_False, if_false]
            rw [he]
            cases staleFirst <;> simp
          rw [h1, h2]
          exact ih _ S1 h2i

/-- C9. For a store with non-negative road weights and valid road destinations
and valid `start` and `end`, the query whose loop skips a popped entry `(d, u)`
with `d > dist[u]` (checked before or after the test `u == end`) gives, for
every fuel, the result of `shortestPathByDistance`, which relaxes every popped
entry; and with enough fuel that result is a returned path. -/
theorem shortestPathSkipStale_eq (g : MapGraph) (staleFirst : Bool) (start end_ : Int)
    (hW : WeightsNonneg g) (hD : DestsValid g)
    (hs : ValidIndex g start) (he : ValidIndex g end_) :
    (∀ fuel, g.shortestPathSkipStale staleFirst start end_ fuel =
      g.shortestPathByDistance start end_ fuel) ∧
    ∃ path g1,
      g.shortestPathSkipStale staleFirst start end_ (fuelBound g) = Outcome.done (path, g1) ∧
      g.shortestPathByDistance start end_ (fuelBound g) = Outcome.done (path, g1) := by
  have hall : ∀ fuel, g.shortestPathSkipStale staleFirst start end_ fuel =
      g.shortestPathByDistance start end_ fuel := by
    intro fuel
    obtain ⟨st0, hi, hinv, _, _⟩ := initState_inv g start end_ hs.1 hs.2
    have := relaxLoopSkip_eq g _ start end_ staleFirst (graphOK_of hW hD) fuel st0 [] hinv
    simp only [MapGraph.shortestPathSkipStale, MapGraph.shortestPathByDistance, hi, this]
  refine ⟨hall, ?_⟩
  obtain ⟨path, g1, hq, _⟩ := query_returns g start end_ (fuelBound g) hW hD hs he (le_refl _)
  exact ⟨path, g1, (hall _).trans hq, hq⟩

/-! ## The graph store -/

theorem getRoadsFrom_emplace (g : MapGraph) (k j : Int) (r : Road) :
    ({ g with adjList := adjEmplace g.adjList k r } : MapGraph).getRoadsFrom j =
      if j = k then g.getRoadsFrom k ++ [r] else g.getRoadsFrom j := by
  unfold MapGraph.getRoadsFrom adjEmplace adjIndex
  by_cases hj : j = k
  · subst hj
    cases hm : g.adjList j <;> simp [hm]
  · cases hm : g.adjList k <;> simp [hm, hj]

theorem getRoadsFrom_addRoad (g : MapGraph) (a b : Int) (w : ℚ) (j : Int) :
    (g.addRoad a b w).getRoadsFrom j =
      if j = b then
        (if b = a then g.getRoadsFrom a ++ [⟨b, w⟩] else g.getRoadsFrom b) ++ [⟨a, w⟩]
      else if j = a then g.getRoadsFrom a ++ [⟨b, w⟩]
      else g.getRoadsFrom j := by
  have h1 := getRoadsFrom_emplace g a
  have h2 := getRoadsFrom_emplace { g with adjList := adjEmplace g.adjList a ⟨b, w⟩ } b j ⟨a, w⟩
  show ({ g with adjList := adjEmplace (adjEmplace g.adjList a ⟨b, w⟩) b ⟨a, w⟩ } :
    MapGraph).getRoadsFrom j = _
  rw [show ({ g with adjList := adjEmplace (adjEmplace g.adjList a ⟨b, w⟩) b ⟨a, w⟩ } : MapGraph)
    = { ({ g with adjList := adjEmplace g.adjList a ⟨b, w⟩ } : MapGraph) with
        adjList := adjEmplace
          ({ g with adjList := adjEmplace g.adjList a ⟨b, w⟩ } : MapGraph).adjList b ⟨a, w⟩ }
    from rfl, h2, h1, h1]

theorem mem_addRoad {g : MapGraph} {a b : Int} {w : ℚ} {j : Int} {r : Road}
    (h : r ∈ (g.addRoad a b w).getRoadsFrom j) :
    r ∈ g.getRoadsFrom j ∨ r = ⟨b, w⟩ ∨ r = ⟨a, w⟩ := by
  rw [getRoadsFrom_addRoad] at h
  split at h
  · rename_i hjb
    subst hjb
    split at h
    · rename_i hba
      subst hba
      simp only [List.mem_append, List.mem_singleton] at h
      tauto
    · simp only [List.mem_append, List.mem_singleton] at h
      tauto
  · split at h
    · rename_i hja
      subst hja
      simp only [List.mem_append, List.mem_singleton] at h
      tauto
    · exact Or.inl h

theorem built_ok {g : MapGraph} (h : Built g) : WeightsNonneg g ∧ DestsValid g := by
  induction h with
  | empty =>
    constructor
    · intro k r hr
      simp [MapGraph.getRoadsFrom, MapGraph.empty] at hr
    · intro k r hr
      simp [MapGraph.getRoadsFrom, MapGraph.empty] at hr
  | addLocation g name desc _ ih =>
    constructor
    · intro k r hr
      exact ih.1 k r hr
    · intro k r hr
      have := ih.2 k r hr
      refine ⟨this.1, ?_⟩
      have h2 : r.destination < (g.locations.length : Int) := this.2
      show r.destination < ((g.locations ++ [(⟨name, desc⟩ : Location)]).length : Int)
      simp
      omega
  | addRoad g a b w _ ha hb hw ih =>
    constructor
    · intro k r hr
      rcases mem_addRoad hr with h | h | h
      · exact ih.1 k r h
      · subst h; exact hw
      · subst h; exact hw
    · intro k r hr
      rcases mem_addRoad hr with h | h | h
      · exact ih.2 k r h
      · subst h; exact hb
      · subst h; exact ha

/-- C8. After `addRoad(a, b, w)` with `a ≠ b`, `getRoadsFrom(a)` is its former
list followed by the record `(b, w)`, `getRoadsFrom(b)` is its former list
followed by `(a, w)`, every other adjacency list is unchanged and so are the
locations; hence `b` is a neighbour of `a` and `a` of `b`, both with weight `w`. -/
theorem addRoad_symmetric (g : MapGraph) (a b : Int) (w : ℚ) (hab : a ≠ b) :
    (g.addRoad a b w).getRoadsFrom a = g.getRoadsFrom a ++ [⟨b, w⟩] ∧
    (g.addRoad a b w).getRoadsFrom b = g.getRoadsFrom b ++ [⟨a, w⟩] ∧
    (∀ c, c ≠ a → c ≠ b → (g.addRoad a b w).getRoadsFrom c = g.getRoadsFrom c) ∧
    (g.addRoad a b w).locations = g.locations ∧
    (⟨b, w⟩ : Road) ∈ (g.addRoad a b w).getRoadsFrom a ∧
    (⟨a, w⟩ : Road) ∈ (g.addRoad a b w).getRoadsFrom b := by
  have hba : b ≠ a := fun e => hab e.symm
  have h1 : (g.addRoad a b w).getRoadsFrom a = g.getRoadsFrom a ++ [⟨b, w⟩] := by
    rw [getRoadsFrom_addRoad]
    simp [hab]
  have h2 : (g.addRoad a b w).getRoadsFrom b = g.getRoadsFrom b ++ [⟨a, w⟩] := by
    rw [getRoadsFrom_addRoad]
    simp [hba]
  refine ⟨h1, h2, ?_, rfl, ?_, ?_⟩
  · intro c hca hcb
    rw [getRoadsFrom_addRoad]
    simp [hca, hcb]
  · rw [h1]; simp
  · rw [h2]; simp

/-- C5, as amended. `addRoad` does not look at the sign of the distance: with
`distance < 0` the call stores the road like any other, so that afterwards
`(b, distance)` is a record of `getRoadsFrom(a)`, `(a, distance)` is a record of
`getRoadsFrom(b)`, and both lists are longer than before. -/
theorem addRoad_negative_stored (g : MapGraph) (a b : Int) (distance : ℚ)
    (hneg : distance < 0) :
    (⟨b, distance⟩ : Road) ∈ (g.addRoad a b distance).getRoadsFrom a ∧
    (⟨a, distance⟩ : Road) ∈ (g.addRoad a b distance).getRoadsFrom b ∧
    (g.getRoadsFrom a).length < ((g.addRoad a b distance).getRoadsFrom a).length ∧
    (g.getRoadsFrom b).length < ((g.addRoad a b distance).getRoadsFrom b).length ∧
    (∃ r ∈ (g.addRoad a b distance).getRoadsFrom a, r.distance < 0) := by
  have h1 : (⟨b, distance⟩ : Road) ∈ (g.addRoad a b distance).getRoadsFrom a := by
    rw [getRoadsFrom_addRoad]
    by_cases hab : a = b
    · subst hab; simp
    · simp [hab]
  refine ⟨h1, ?_, ?_, ?_, ⟨_, h1, hneg⟩⟩
  · rw [getRoadsFrom_addRoad]
    simp
  · rw [getRoadsFrom_addRoad]
    by_cases hab : a = b
    · subst hab; simp
    · simp [hab]
  · rw [getRoadsFrom_addRoad]
    by_cases hab : b = a
    · subst hab; simp
    · simp [hab]

/-- C4. For a valid index `x` (whatever the roads of the store) the query
`shortestPathByDistance(x, x)` returns exactly `[x]` and leaves the store as it
was, and `setPathInfo` reports total distance `0` for that path. -/
theorem degenerate_query (g : MapGraph) (x : Int) (fuel : Nat)
    (hx : ValidIndex g x) (hf : 1 ≤ fuel) :
    g.shortestPathByDistance x x fuel = Outcome.done ([x], g) ∧
    (setPathInfo [x] g).totalDistance = 0 ∧
    mainQuery g x x fuel = Outcome.done ⟨[x], 0, 0⟩ := by
  have hx1 : x < (g.locations.length : Int) := hx.2
  have hs := setAt_of_range (l := List.replicate g.locations.length (none : Option ℚ))
    (some (0 : ℚ)) hx.1 (by simpa using hx1)
  have hne : x ≠ -1 := by have := hx.1; omega
  have hq : g.shortestPathByDistance x x fuel = Outcome.done ([x], g) := by
    cases fuel with
    | zero => omega
    | succ f =>
      have hp : getAt (List.replicate g.locations.length (-1 : Int)) x = some (-1) :=
        getAt_replicate hx.1 hx1
      simp only [MapGraph.shortestPathByDistance, initState, hs, relaxLoop, pqTop, if_true]
      rw [walkBack_step f [] hne hp, walkBack_stop]
      rfl
  refine ⟨hq, rfl, ?_⟩
  simp only [mainQuery, hq]
  rfl

/-! ## What a query leaves of the store -/

theorem relaxRoad_adjList {u : Int} {d : ℚ} {st st1 : DState} {r : Road}
    (h : relaxRoad u d st r = some st1) : st1.adjList = st.adjList := by
  simp only [relaxRoad] at h
  split at h
  · simp at h
  · split at h
    · split at h
      · simp at h
        rw [← h]
      · simp at h
    · simp at h
      rw [h]

theorem relaxAll_adjList {u : Int} {d : ℚ} :
    ∀ (rs : List Road) (st st1 : DState), relaxAll u d st rs = some st1 →
      st1.adjList = st.adjList := by
  intro rs
  induction rs with
  | nil =>
    intro st st1 h
    simp [relaxAll] at h
    rw [h]
  | cons r rest ih =>
    intro st st1 h
    unfold relaxAll at h
    split at h
    · simp at h
    · rename_i st2 h2
      rw [ih st2 st1 h, relaxRoad_adjList h2]

theorem relaxLoop_roads (end_ : Int) :
    ∀ (fuel : Nat) (st st1 : DState), relaxLoop end_ fuel st = Outcome.done st1 →
      ∀ k, (match st1.adjList k with | some rs => rs | none => []) =
        (match st.adjList k with | some rs => rs | none => []) := by
  intro fuel
  induction fuel with
  | zero => intro st st1 h; simp [relaxLoop] at h
  | succ f ih =>
    intro st st1 h k
    unfold relaxLoop at h
    split at h
    · simp at h
      rw [h]
    · rename_i top htop
      simp only at h
      split at h
      · simp at h
        rw [← h]
      · split at h
        · simp at h
        · rename_i st2 h2
          rw [ih st2 st1 h k, relaxAll_adjList _ _ _ h2]
          exact adjIndex_fst_roads _ _ _

/-- Frame property of a query: the locations and the roads `getRoadsFrom` reports
for every index are what they were before the call. -/
theorem query_keeps_roads (g : MapGraph) (start end_ : Int) (fuel : Nat)
    (path : List Int) (g1 : MapGraph)
    (h : g.shortestPathByDistance start end_ fuel = Outcome.done (path, g1)) :
    g1.locations = g.locations ∧ ∀ k, g1.getRoadsFrom k = g.getRoadsFrom k := by
  unfold MapGraph.shortestPathByDistance at h
  split at h
  · simp at h
  · rename_i st0 hi
    split at h
    · simp at h
    · simp at h
    · rename_i st hrun
      split at h
      · simp at h
      · simp at h
      · simp at h
        have hg : g1 = { g with adjList := st.adjList } := h.2.symm
        subst hg
        refine ⟨rfl, ?_⟩
        intro k
        have h0 : st0.adjList = g.adjList := by
          simp only [initState] at hi
          split at hi
          · simp at hi
          · simp at hi
            rw [← hi]
        have := relaxLoop_roads end_ fuel st0 st hrun k
        rw [h0] at this
        exact this

/-! ## The distance `setPathInfo` reports -/

theorem firstRoadTo_some {q : Int} {r : Road} :
    ∀ roads : List Road, firstRoadTo roads q = some r → r ∈ roads ∧ r.destination = q := by
  intro roads
  induction roads with
  | nil => intro h; simp [firstRoadTo] at h
  | cons a rest ih =>
    intro h
    by_cases ha : a.destination = q
    · simp only [firstRoadTo, ha, if_true] at h
      have : a = r := Option.some.inj h
      subst this
      exact ⟨List.mem_cons_self _ _, ha⟩
    · simp only [firstRoadTo, ha, if_false] at h
      exact ⟨List.mem_cons_of_mem _ (ih h).1, (ih h).2⟩

theorem firstRoadTo_none {q : Int} :
    ∀ roads : List Road, firstRoadTo roads q = none → ∀ r ∈ roads, r.destination ≠ q := by
  intro roads
  induction roads with
  | nil => intro _ r hr; simp at hr
  | cons a rest ih =>
    intro h r hr
    by_cases ha : a.destination = q
    · simp [firstRoadTo, ha] at h
    · simp only [firstRoadTo, ha, if_false] at h
      rcases List.mem_cons.1 hr with rfl | hr
      · exact ha
      · exact ih h r hr

theorem sumPath_congr {g g1 : MapGraph} (h : ∀ k, g1.getRoadsFrom k = g.getRoadsFrom k) :
    ∀ (path : List Int) (acc : ℚ × ℚ), sumPath g1 path acc = sumPath g path acc := by
  intro path
  induction path with
  | nil => intro acc; rfl
  | cons a rest ih =>
    intro acc
    cases rest with
    | nil => rfl
    | cons b rest2 =>
      simp only [sumPath, h a]
      cases firstRoadTo (g.getRoadsFrom a) b with
      | none => exact ih _
      | some r => exact ih _

theorem sumPath_fst {g : MapGraph} (hfc : FirstIsCheapest g) :
    ∀ (path : List Int) (acc : ℚ × ℚ),
      (sumPath g path acc).1 = acc.1 + pathWeight g path := by
  intro path
  induction path with
  | nil => intro acc; simp [sumPath, pathWeight]
  | cons a rest ih =>
    intro acc
    cases rest with
    | nil => simp [sumPath, pathWeight]
    | cons b rest2 =>
      cases hfr : firstRoadTo (g.getRoadsFrom a) b with
      | none =>
        have hc := cheapestTo_none _ (firstRoadTo_none _ hfr)
        simp only [sumPath, pathWeight, hfr, hc]
        rw [ih acc]
        ring
      | some r =>
        obtain ⟨hr, hq⟩ := firstRoadTo_some _ hfr
        have hc := cheapestTo_eq hr hq (hfc a b r hfr)
        simp only [sumPath, pathWeight, hfr, hc]
        rw [ih _]
        ring

/-- For a store with non-negative weights and valid destinations in which the first
stored road between two locations is a cheapest one, and `end` reachable from
`start`, the total distance `setPathInfo` reports for the returned path is the
minimum of the weights of the routes from `start` to `end`. -/
theorem reported_distance_minimum (g : MapGraph) (start end_ : Int) (fuel : Nat)
    (hW : WeightsNonneg g) (hD : DestsValid g)
    (hs : ValidIndex g start) (he : ValidIndex g end_)
    (hreach : Reachable g start end_) (hf : fuelBound g ≤ fuel)
    (hfc : FirstIsCheapest g) :
    ∃ info, mainQuery g start end_ fuel = Outcome.done info ∧
      (∀ rs, IsRoute g start rs end_ → info.totalDistance ≤ routeWeight rs) ∧
      (∃ rs, IsRoute g start rs end_ ∧ routeWeight rs = info.totalDistance) := by
  obtain ⟨path, g1, de, hq, hhead, hlast, hchain, hw, hmin, hroads⟩ :=
    query_trail g start end_ fuel hW hD hs he hreach hf
  have htot : (setPathInfo path g1).totalDistance = de := by
    show (sumPath g1 path (0, 0)).1 = de
    rw [sumPath_congr hroads, sumPath_fst hfc, hw]
    simp
  refine ⟨setPathInfo path g1, by simp only [mainQuery, hq], ?_, ?_⟩
  · intro rs hrs
    rw [htot]
    exact hmin rs hrs
  · obtain ⟨rs, hrs, hwr⟩ := path_route g end_ path start hchain hhead hlast
    exact ⟨rs, hrs, by rw [hwr, hw, htot]⟩

/-! ## Concrete stores -/

theorem twoLocations_built : Built twoLocations :=
  Built.addLocation _ _ _ (Built.addLocation _ _ _ Built.empty)

theorem parallelMap_built : Built parallelMap :=
  Built.addRoad _ 0 1 1
    (Built.addRoad _ 0 1 5 twoLocations_built (by decide) (by decide) (by norm_num))
    (by decide) (by decide) (by norm_num)

theorem staleMap_built : Built staleMap := by
  unfold staleMap
  refine Built.addRoad _ 1 3 _ ?_ (by decide) (by decide) (by norm_num)
  refine Built.addRoad _ 2 1 _ ?_ (by decide) (by decide) (by norm_num)
  refine Built.addRoad _ 0 2 _ ?_ (by decide) (by decide) (by norm_num)
  refine Built.addRoad _ 0 1 _ ?_ (by decide) (by decide) (by norm_num)
  exact Built.addLocation _ _ _ (Built.addLocation _ _ _ twoLocations_built)

theorem campusMap_built : Built campusMap := by
  unfold campusMap
  refine Built.addRoad _ 2 4 _ ?_ (by decide) (by decide) (by norm_num)
  refine Built.addRoad _ 1 3 _ ?_ (by decide) (by decide) (by norm_num)
  refine Built.addRoad _ 0 4 _ ?_ (by decide) (by decide) (by norm_num)
  refine Built.addRoad _ 3 4 _ ?_ (by decide) (by decide) (by norm_num)
  refine Built.addRoad _ 2 3 _ ?_ (by decide) (by decide) (by norm_num)
  refine Built.addRoad _ 1 2 _ ?_ (by decide) (by decide) (by norm_num)
  refine Built.addRoad _ 0 1 _ ?_ (by decide) (by decide) (by norm_num)
  exact Built.addLocation _ _ _ (Built.addLocation _ _ _ (Built.addLocation _ _ _
    (Built.addLocation _ _ _ (Built.addLocation _ _ _ Built.empty))))

theorem twoLocations_unreachable : ¬ Reachable twoLocations 0 1 := by
  rintro ⟨rs, h⟩
  cases rs with
  | nil =>
    have : (0 : Int) = 1 := h
    omega
  | cons r rest =>
    have : r ∈ twoLocations.getRoadsFrom 0 := h.1
    simp [twoLocations, MapGraph.getRoadsFrom, MapGraph.addLocation, MapGraph.empty] at this

/-- Scenario 2 of the specification on the store of `main`: the query `(1, 3)` gives
the path `[1, 3]`, and `setPathInfo` reports the distance `0.7`. -/
theorem campus_query_B_D :
    mainQuery campusMap 1 3 (fuelBound campusMap) = Outcome.done ⟨[1, 3], 7 / 10, 7 / 5⟩ := by
  decide!

/-- Scenario 1 of the specification on the store of `main`: the query `(0, 4)` gives
the path `[0, 4]`, and `setPathInfo` reports the distance `1.5`. -/
theorem campus_query_A_Hostel :
    mainQuery campusMap 0 4 (fuelBound campusMap) = Outcome.done ⟨[0, 4], 3 / 2, 3⟩ := by
  decide!

/-- C2. On two locations joined by a road of distance `5` stored
first and a parallel road of distance `1`, the query `(0, 1)` returns `[0, 1]`
and `setPathInfo` reports total distance `5`, though the route over the second
road has weight `1`. -/
theorem parallel_roads_reported_distance :
    (WeightsNonneg parallelMap ∧ DestsValid parallelMap) ∧
    mainQuery parallelMap 0 1 (fuelBound parallelMap) = Outcome.done ⟨[0, 1], 5, 10⟩ ∧
    IsRoute parallelMap 0 [⟨1, 1⟩] 1 ∧ routeWeight [⟨1, 1⟩] = 1 := by
  refine ⟨built_ok parallelMap_built, by decide!, ⟨by decide!, rfl⟩, by simp [routeWeight]⟩

/-- C3, as stated, fails. On two locations and no road, where no sequence of roads
connects `0` to `1`, the query `(0, 1)` returns the one-element sequence `[1]`,
not the empty sequence. -/
theorem no_path_returns_end :
    ¬ Reachable twoLocations 0 1 ∧
    queryPath (twoLocations.shortestPathByDistance 0 1 (fuelBound twoLocations)) =
      Outcome.done [1] ∧
    queryPath (twoLocations.shortestPathByDistance 0 1 (fuelBound twoLocations)) ≠
      Outcome.done [] := by
  refine ⟨twoLocations_unreachable, by decide!, by decide!⟩

/-- C6. On two locations and no road the adjacency map has no entry
for index `0` before the query `(0, 1)`, and has one (an empty list) after it. -/
theorem query_inserts_entry :
    twoLocations.adjList 0 = none ∧
    ∃ path g1, twoLocations.shortestPathByDistance 0 1 (fuelBound twoLocations) =
        Outcome.done (path, g1) ∧
      g1.adjList 0 = some [] := by
  refine ⟨rfl, [1], ⟨twoLocations.locations,
    fun j => if j = 0 then some [] else twoLocations.adjList j⟩, ?_, rfl⟩
  rfl

/-- C5, as stated, fails. On two locations and no road, `addRoad(0, 1, -1)` is not
rejected: afterwards the adjacency lists of `0` and of `1` both differ from what
they were. -/
theorem addRoad_negative_not_rejected :
    (-1 : ℚ) < 0 ∧ ValidIndex twoLocations 0 ∧ ValidIndex twoLocations 1 ∧
    (twoLocations.addRoad 0 1 (-1)).getRoadsFrom 0 ≠ twoLocations.getRoadsFrom 0 ∧
    (twoLocations.addRoad 0 1 (-1)).getRoadsFrom 1 ≠ twoLocations.getRoadsFrom 1 := by
  refine ⟨by norm_num, by decide, by decide, by decide!, by decide!⟩

/-! ## The theorems at concrete inputs -/

/-- C1 on the store of `main`, query `(2, 0)`, where the route over location `1` has
weight `1.3`. -/
theorem shortestPathByDistance_shortest_witness :
    (WeightsNonneg campusMap ∧ DestsValid campusMap ∧ ValidIndex campusMap 2 ∧
      ValidIndex campusMap 0 ∧ Reachable campusMap 2 0 ∧
      fuelBound campusMap ≤ fuelBound campusMap) ∧
    ∃ path g1, campusMap.shortestPathByDistance 2 0 (fuelBound campusMap) =
        Outcome.done (path, g1) ∧
      path.head? = some 2 ∧ path.getLast? = some 0 ∧
      List.Chain' (Joined campusMap) path ∧
      (∀ rs, IsRoute campusMap 2 rs 0 → pathWeight campusMap path ≤ routeWeight rs) ∧
      (∃ rs, IsRoute campusMap 2 rs 0 ∧ routeWeight rs = pathWeight campusMap path) :=
  ⟨⟨(built_ok campusMap_built).1, (built_ok campusMap_built).2, by decide, by decide,
      ⟨[⟨1, 4 / 5⟩, ⟨0, 1 / 2⟩], by decide!, by decide!, rfl⟩, le_refl _⟩,
    shortestPathByDistance_shortest campusMap 2 0 (fuelBound campusMap)
      (built_ok campusMap_built).1 (built_ok campusMap_built).2 (by decide) (by decide)
      ⟨[⟨1, 4 / 5⟩, ⟨0, 1 / 2⟩], by decide!, by decide!, rfl⟩ (le_refl _)⟩

/-- C3 (as amended) on two locations and no road, query `(0, 1)`. -/
theorem no_route_result_witness :
    (WeightsNonneg twoLocations ∧ DestsValid twoLocations ∧ ValidIndex twoLocations 0 ∧
      ValidIndex twoLocations 1 ∧ ¬ Reachable twoLocations 0 1 ∧
      fuelBound twoLocations ≤ fuelBound twoLocations) ∧
    ∃ g1, twoLocations.shortestPathByDistance 0 1 (fuelBound twoLocations) =
        Outcome.done ([1], g1) ∧
      queryPath (twoLocations.shortestPathByDistance 0 1 (fuelBound twoLocations)) ≠
        Outcome.done [] :=
  ⟨⟨(built_ok twoLocations_built).1, (built_ok twoLocations_built).2, by decide, by decide,
      twoLocations_unreachable, le_refl _⟩,
    no_route_result twoLocations 0 1 (fuelBound twoLocations)
      (built_ok twoLocations_built).1 (built_ok twoLocations_built).2 (by decide) (by decide)
      twoLocations_unreachable (le_refl _)⟩

/-- C4 on the store of `main`, query `(2, 2)`, one unit of fuel. -/
theorem degenerate_query_witness :
    (ValidIndex campusMap 2 ∧ 1 ≤ 1) ∧
    campusMap.shortestPathByDistance 2 2 1 = Outcome.done ([2], campusMap) ∧
    (setPathInfo [2] campusMap).totalDistance = 0 ∧
    mainQuery campusMap 2 2 1 = Outcome.done ⟨[2], 0, 0⟩ :=
  ⟨⟨by decide, le_refl _⟩, degenerate_query campusMap 2 1 (by decide) (le_refl _)⟩

/-- C5 (as amended) on two locations, `addRoad(0, 1, -1)`. -/
theorem addRoad_negative_stored_witness :
    (-1 : ℚ) < 0 ∧
    (⟨1, -1⟩ : Road) ∈ (twoLocations.addRoad 0 1 (-1)).getRoadsFrom 0 ∧
    (⟨0, -1⟩ : Road) ∈ (twoLocations.addRoad 0 1 (-1)).getRoadsFrom 1 ∧
    (twoLocations.getRoadsFrom 0).length <
      ((twoLocations.addRoad 0 1 (-1)).getRoadsFrom 0).length ∧
    (twoLocations.getRoadsFrom 1).length <
      ((twoLocations.addRoad 0 1 (-1)).getRoadsFrom 1).length ∧
    (∃ r ∈ (twoLocations.addRoad 0 1 (-1)).getRoadsFrom 0, r.distance < 0) :=
  ⟨by norm_num, addRoad_negative_stored twoLocations 0 1 (-1) (by norm_num)⟩

/-- C7 on the store of `main`, query `(0, 4)`. -/
theorem shortestPathByDistance_terminates_witness :
    (WeightsNonneg campusMap ∧ DestsValid campusMap ∧ ValidIndex campusMap 0 ∧
      ValidIndex campusMap 4) ∧
    (∃ st0 st, initState campusMap 0 = some st0 ∧
      relaxLoop 4 (fuelBound campusMap) st0 = Outcome.done st ∧
      ∀ v, ValidIndex campusMap v → ∃ walked,
        walkBack st.prev campusMap.locations.length v [] = Outcome.done walked) ∧
    ∀ fuel, fuelBound campusMap ≤ fuel →
      ∃ path g1, campusMap.shortestPathByDistance 0 4 fuel = Outcome.done (path, g1) ∧
        path.length ≤ campusMap.locations.length :=
  ⟨⟨(built_ok campusMap_built).1, (built_ok campusMap_built).2, by decide, by decide⟩,
    shortestPathByDistance_terminates campusMap 0 4
      (built_ok campusMap_built).1 (built_ok campusMap_built).2 (by decide) (by decide)⟩

/-- C8 on two locations, `addRoad(0, 1, 5)`. -/
theorem addRoad_symmetric_witness :
    (0 : Int) ≠ 1 ∧
    (twoLocations.addRoad 0 1 5).getRoadsFrom 0 = twoLocations.getRoadsFrom 0 ++ [⟨1, 5⟩] ∧
    (twoLocations.addRoad 0 1 5).getRoadsFrom 1 = twoLocations.getRoadsFrom 1 ++ [⟨0, 5⟩] ∧
    (∀ c, c ≠ 0 → c ≠ 1 →
      (twoLocations.addRoad 0 1 5).getRoadsFrom c = twoLocations.getRoadsFrom c) ∧
    (twoLocations.addRoad 0 1 5).locations = twoLocations.locations ∧
    (⟨1, 5⟩ : Road) ∈ (twoLocations.addRoad 0 1 5).getRoadsFrom 0 ∧
    (⟨0, 5⟩ : Road) ∈ (twoLocations.addRoad 0 1 5).getRoadsFrom 1 :=
  ⟨by decide, addRoad_symmetric twoLocations 0 1 5 (by decide)⟩

/-- C9 on a store where the skip fires: roads `0-1` of `10`, `0-2` of `1`, `2-1` of
`1`, `1-3` of `20`, query `(0, 3)`.  The loop of the code pops one stale entry,
`(10, 1)` after `dist[1]` has become `2`, and returns `[0, 2, 1, 3]`; the variant
that skips it, with the check before or after the test `u == end`, returns the
same. -/
theorem shortestPathSkipStale_eq_witness :
    (WeightsNonneg staleMap ∧ DestsValid staleMap ∧ ValidIndex staleMap 0 ∧
      ValidIndex staleMap 3) ∧
    staleMap.stalePopCount 0 3 (fuelBound staleMap) = 1 ∧
    queryPath (staleMap.shortestPathByDistance 0 3 (fuelBound staleMap)) =
      Outcome.done [0, 2, 1, 3] ∧
    queryPath (staleMap.shortestPathSkipStale true 0 3 (fuelBound staleMap)) =
      Outcome.done [0, 2, 1, 3] ∧
    queryPath (staleMap.shortestPathSkipStale false 0 3 (fuelBound staleMap)) =
      Outcome.done [0, 2, 1, 3] ∧
    ((∀ fuel, staleMap.shortestPathSkipStale true 0 3 fuel =
        staleMap.shortestPathByDistance 0 3 fuel) ∧
      ∃ path g1,
        staleMap.shortestPathSkipStale true 0 3 (fuelBound staleMap) =
          Outcome.done (path, g1) ∧
        staleMap.shortestPathByDistance 0 3 (fuelBound staleMap) =
          Outcome.done (path, g1)) ∧
    ((∀ fuel, staleMap.shortestPathSkipStale false 0 3 fuel =
        staleMap.shortestPathByDistance 0 3 fuel) ∧
      ∃ path g1,
        staleMap.shortestPathSkipStale false 0 3 (fuelBound staleMap) =
          Outcome.done (path, g1) ∧
        staleMap.shortestPathByDistance 0 3 (fuelBound staleMap) =
          Outcome.done (path, g1)) :=
  ⟨⟨(built_ok staleMap_built).1, (built_ok staleMap_built).2, by decide, by decide⟩,
    by decide!, by decide!, by decide!, by decide!,
    shortestPathSkipStale_eq staleMap true 0 3
      (built_ok staleMap_built).1 (built_ok staleMap_built).2 (by decide) (by decide),
    shortestPathSkipStale_eq staleMap false 0 3
      (built_ok staleMap_built).1 (built_ok staleMap_built).2 (by decide) (by decide)⟩

/-- C10 on the store of `main`, query `(3, 0)`, twenty units of fuel. -/
theorem shortestPathByDistance_in_range_witness :
    (WeightsNonneg campusMap ∧ DestsValid campusMap ∧ ValidIndex campusMap 3 ∧
      ValidIndex campusMap 0) ∧
    campusMap.shortestPathByDistance 3 0 20 ≠ Outcome.outOfRange ∧
    ∃ st0, initState campusMap 3 = some st0 ∧
      relaxLoop 0 20 st0 ≠ Outcome.outOfRange ∧
      ∀ st, relaxLoop 0 20 st0 = Outcome.done st →
        st.dist.length = campusMap.locations.length ∧
        st.prev.length = campusMap.locations.length ∧
        (∀ p ∈ st.prev, p = -1 ∨ ValidIndex campusMap p) ∧
        ∀ f, walkBack st.prev f 0 [] ≠ Outcome.outOfRange :=
  ⟨⟨(built_ok campusMap_built).1, (built_ok campusMap_built).2, by decide, by decide⟩,
    shortestPathByDistance_in_range campusMap 3 0
      (built_ok campusMap_built).1 (built_ok campusMap_built).2 (by decide) (by decide) 20⟩

end CuMap
